import Mathlib

/-!
Verification of the TP1 web crawler (src/TP1/crawler.py).

The development shallowly embeds the crawler: URL strings are Lean
strings manipulated as lists of characters, the standard library
functions urllib.parse.urlparse / urlunparse are modelled faithfully
after CPython 3.11 (for URLs free of ASCII control characters and
whitespace, which the stdlib would additionally strip), the network,
BeautifulSoup and urljoin are oracle parameters collected in a World
structure, and the crawl loop is an iterated step function on an
explicit crawl state.  Machine bytes are Fin 256.
-/

namespace TPCrawler

/-! ### Basic list-of-character utilities (Python string operations) -/

/-- Split a list at the first character satisfying a predicate:
returns the (predicate-free) prefix and the remainder starting with the
found character; if no character matches, the remainder is empty.
Models Python str.find followed by slicing. -/
def breakAtFirst (p : Char → Bool) : List Char → List Char × List Char
  | [] => ([], [])
  | c :: r =>
    if p c then ([], c :: r)
    else
      let s := breakAtFirst p r
      (c :: s.1, s.2)

/-- Boolean list-prefix test (Python str.startswith). -/
def isPrefixB : List Char → List Char → Bool
  | [], _ => true
  | _ :: _, [] => false
  | a :: as, b :: bs => a == b && isPrefixB as bs

/-- Boolean substring test (Python `in` on strings). -/
def isInfixB (pat : List Char) : List Char → Bool
  | [] => isPrefixB pat []
  | c :: r => isPrefixB pat (c :: r) || isInfixB pat r

/-- Lexicographic less-or-equal on character lists, by code point:
Python string comparison. -/
def strLeB : List Char → List Char → Bool
  | [], _ => true
  | _ :: _, [] => false
  | a :: as, b :: bs =>
    if a < b then true else if b < a then false else strLeB as bs

/-- ASCII whitespace test for Python str.strip (restricted to the
whitespace characters relevant here). -/
def isSpace (c : Char) : Bool :=
  c == ' ' || c == '\t' || c == '\n' || c == '\r'

/-- Python str.strip: remove whitespace from both ends. -/
def pyStrip (s : List Char) : List Char :=
  ((s.dropWhile isSpace).reverse.dropWhile isSpace).reverse

/-! ### URL parsing: urllib.parse.urlparse / urlunparse (CPython 3.11) -/

/-- The six components of urllib.parse.ParseResult. -/
structure UrlParts where
  scheme : List Char
  netloc : List Char
  path : List Char
  params : List Char
  query : List Char
  fragment : List Char
deriving DecidableEq, Repr

/-- Characters allowed in a URL scheme (urllib.parse.scheme_chars). -/
def schemeChar (c : Char) : Bool :=
  c.isAlphanum || c == '+' || c == '-' || c == '.'

/-- Scheme recognition of urlsplit: a non-empty all-scheme-chars prefix
that starts with an ASCII letter, terminated by a colon, is removed and
lowercased. -/
def splitScheme (url : List Char) : List Char × List Char :=
  let s := breakAtFirst (fun c => c == ':') url
  if s.2 ≠ [] && s.1 ≠ [] && s.1.all schemeChar && s.1.headI.isAlpha then
    (s.1.map Char.toLower, s.2.tail)
  else ([], url)

/-- A character ending the netloc portion (urllib.parse._splitnetloc). -/
def netlocDelim (c : Char) : Bool :=
  c == '/' || c == '?' || c == '#'

/-- Netloc recognition of urlsplit: after a leading "//" take all
characters up to the next '/', '?' or '#'. -/
def splitNetloc (url : List Char) : List Char × List Char :=
  if isPrefixB ['/', '/'] url then breakAtFirst netlocDelim (url.drop 2)
  else ([], url)

/-- Fragment split: url.split(sep, 1) keeping (before, after). -/
def splitAtSep (sep : Char) (url : List Char) : List Char × List Char :=
  let bf := breakAtFirst (fun c => c == sep) url
  (bf.1, bf.2.tail)

/-- Params split of urlparse (_splitparams): if the path contains a
'/', look for the first ';' at or after the last '/'; otherwise take
the first ';'.  Only called when a ';' is present in the path. -/
def splitParams (url : List Char) : List Char × List Char :=
  if '/' ∈ url then
    let rb := breakAtFirst (fun c => c == '/') url.reverse
    let sb := breakAtFirst (fun c => c == ';') rb.1.reverse
    if sb.2 ≠ [] then (rb.2.reverse ++ sb.1, sb.2.tail) else (url, [])
  else
    let sb := breakAtFirst (fun c => c == ';') url
    if sb.2 ≠ [] then (sb.1, sb.2.tail) else (url, [])

/-- urllib.parse.urlparse on character lists: scheme, then netloc, then
fragment, then query are peeled off (urlsplit), finally params are
separated from the path. -/
def urlparseL (s : List Char) : UrlParts :=
  let sr := splitScheme s
  let nr := splitNetloc sr.2
  let fr := splitAtSep '#' nr.2
  let qr := splitAtSep '?' fr.1
  let pp := if ';' ∈ qr.1 then splitParams qr.1 else (qr.1, [])
  ⟨sr.1, nr.1, pp.1, pp.2, qr.2, fr.2⟩

/-- urllib.parse.urlunparse on character lists (via urlunsplit). -/
def urlunparseL (u : UrlParts) : List Char :=
  let url0 := if u.params = [] then u.path else u.path ++ ';' :: u.params
  let url1 :=
    if u.netloc ≠ [] ∨ isPrefixB ['/', '/'] url0 then
      '/' :: '/' :: u.netloc ++
        (if url0 ≠ [] ∧ ¬ isPrefixB ['/'] url0 then '/' :: url0 else url0)
    else url0
  let url2 := if u.scheme ≠ [] then u.scheme ++ ':' :: url1 else url1
  let url3 := if u.query ≠ [] then url2 ++ '?' :: u.query else url2
  if u.fragment ≠ [] then url3 ++ '#' :: u.fragment else url3

/-- Clear the fragment component (the extractor stores '' there). -/
def dropFragment (u : UrlParts) : UrlParts :=
  { u with fragment := [] }

/-- urlparse on Lean strings. -/
def urlparse (s : String) : UrlParts :=
  urlparseL s.data

/-- Netloc of a URL string. -/
def netlocOf (s : String) : List Char :=
  (urlparse s).netloc

/-- base_domain of the crawler: `parsed.netloc or parsed.hostname`.
With an empty netloc the hostname is Python None, modelled as none. -/
def baseDomainOf (startUrl : String) : Option (List Char) :=
  let nl := (urlparse startUrl).netloc
  if nl = [] then none else some nl

/-! ### Body decoding (make_request, crawler.py lines 96-107) -/

/-- UTF-8 continuation byte test. -/
def isCont (b : Fin 256) : Bool :=
  0x80 ≤ b.val && b.val ≤ 0xBF

/-- Strict UTF-8 decoding as Python bytes.decode('utf-8'): rejects
truncated sequences, stray continuation bytes, overlong encodings,
surrogates and code points above U+10FFFF. -/
def utf8Decode : List (Fin 256) → Option (List Char)
  | [] => some []
  | b :: rest =>
    if b.val ≤ 0x7F then
      (utf8Decode rest).map (fun cs => Char.ofNat b.val :: cs)
    else if 0xC2 ≤ b.val && b.val ≤ 0xDF then
      match rest with
      | c1 :: r =>
        if isCont c1 then
          (utf8Decode r).map
            (fun cs => Char.ofNat ((b.val - 0xC0) * 64 + (c1.val - 0x80)) :: cs)
        else none
      | [] => none
    else if 0xE0 ≤ b.val && b.val ≤ 0xEF then
      match rest with
      | c1 :: c2 :: r =>
        if (isCont c1 && isCont c2) &&
            (b.val ≠ 0xE0 || 0xA0 ≤ c1.val) && (b.val ≠ 0xED || c1.val ≤ 0x9F) then
          (utf8Decode r).map
            (fun cs =>
              Char.ofNat ((b.val - 0xE0) * 4096 + (c1.val - 0x80) * 64 + (c2.val - 0x80)) :: cs)
        else none
      | _ => none
    else if 0xF0 ≤ b.val && b.val ≤ 0xF4 then
      match rest with
      | c1 :: c2 :: c3 :: r =>
        if (isCont c1 && isCont c2 && isCont c3) &&
            (b.val ≠ 0xF0 || 0x90 ≤ c1.val) && (b.val ≠ 0xF4 || c1.val ≤ 0x8F) then
          (utf8Decode r).map
            (fun cs =>
              Char.ofNat ((b.val - 0xF0) * 262144 + (c1.val - 0x80) * 4096 +
                (c2.val - 0x80) * 64 + (c3.val - 0x80)) :: cs)
        else none
      | _ => none
    else none

/-- bytes.decode('iso-8859-1'): total, every byte maps to U+00..U+FF. -/
def latin1Decode (bs : List (Fin 256)) : Option (List Char) :=
  some (bs.map (fun b => Char.ofNat b.val))

/-- The cp1252 mapping for bytes 0x80-0x9F; five bytes are undefined
and make a strict windows-1252 decode fail. -/
def w1252Hi (n : Nat) : Option Nat :=
  if n = 0x80 then some 0x20AC else if n = 0x81 then none
  else if n = 0x82 then some 0x201A else if n = 0x83 then some 0x0192
  else if n = 0x84 then some 0x201E else if n = 0x85 then some 0x2026
  else if n = 0x86 then some 0x2020 else if n = 0x87 then some 0x2021
  else if n = 0x88 then some 0x02C6 else if n = 0x89 then some 0x2030
  else if n = 0x8A then some 0x0160 else if n = 0x8B then some 0x2039
  else if n = 0x8C then some 0x0152 else if n = 0x8D then none
  else if n = 0x8E then some 0x017D else if n = 0x8F then none
  else if n = 0x90 then none else if n = 0x91 then some 0x2018
  else if n = 0x92 then some 0x2019 else if n = 0x93 then some 0x201C
  else if n = 0x94 then some 0x201D else if n = 0x95 then some 0x2022
  else if n = 0x96 then some 0x2013 else if n = 0x97 then some 0x2014
  else if n = 0x98 then some 0x02DC else if n = 0x99 then some 0x2122
  else if n = 0x9A then some 0x0161 else if n = 0x9B then some 0x203A
  else if n = 0x9C then some 0x0153 else if n = 0x9D then none
  else if n = 0x9E then some 0x017E else if n = 0x9F then some 0x0178
  else some n

/-- bytes.decode('windows-1252'): strict cp1252. -/
def w1252Decode (bs : List (Fin 256)) : Option (List Char) :=
  bs.mapM (fun b => (w1252Hi b.val).map Char.ofNat)

/-- bytes.decode('utf-8', errors='ignore'): like strict UTF-8 but
invalid bytes are dropped and decoding resumes.  The Nat argument is
recursion fuel; the list length always suffices. -/
def utf8IgnoreFuel : Nat → List (Fin 256) → List Char
  | 0, _ => []
  | _ + 1, [] => []
  | fuel + 1, b :: rest =>
    if b.val ≤ 0x7F then
      Char.ofNat b.val :: utf8IgnoreFuel fuel rest
    else if 0xC2 ≤ b.val && b.val ≤ 0xDF then
      match rest with
      | c1 :: r =>
        if isCont c1 then
          Char.ofNat ((b.val - 0xC0) * 64 + (c1.val - 0x80)) :: utf8IgnoreFuel fuel r
        else utf8IgnoreFuel fuel rest
      | [] => []
    else if 0xE0 ≤ b.val && b.val ≤ 0xEF then
      match rest with
      | c1 :: c2 :: r =>
        if (isCont c1 && isCont c2) &&
            (b.val ≠ 0xE0 || 0xA0 ≤ c1.val) && (b.val ≠ 0xED || c1.val ≤ 0x9F) then
          Char.ofNat ((b.val - 0xE0) * 4096 + (c1.val - 0x80) * 64 + (c2.val - 0x80)) ::
            utf8IgnoreFuel fuel r
        else utf8IgnoreFuel fuel rest
      | _ => utf8IgnoreFuel fuel rest
    else if 0xF0 ≤ b.val && b.val ≤ 0xF4 then
      match rest with
      | c1 :: c2 :: c3 :: r =>
        if (isCont c1 && isCont c2 && isCont c3) &&
            (b.val ≠ 0xF0 || 0x90 ≤ c1.val) && (b.val ≠ 0xF4 || c1.val ≤ 0x8F) then
          Char.ofNat ((b.val - 0xF0) * 262144 + (c1.val - 0x80) * 4096 +
            (c2.val - 0x80) * 64 + (c3.val - 0x80)) :: utf8IgnoreFuel fuel r
        else utf8IgnoreFuel fuel rest
      | _ => utf8IgnoreFuel fuel rest
    else utf8IgnoreFuel fuel rest

/-- bytes.decode('utf-8', errors='ignore'). -/
def utf8DecodeIgnore (bs : List (Fin 256)) : List Char :=
  utf8IgnoreFuel bs.length bs

/-- The ordered encoding-attempt list of make_request
(['utf-8', 'iso-8859-1', 'windows-1252']). -/
def decodeAttempts : List (List (Fin 256) → Option (List Char)) :=
  [utf8Decode, latin1Decode, w1252Decode]

/-- First decode attempt that succeeds. -/
def firstSuccess (fs : List (List (Fin 256) → Option (List Char)))
    (bs : List (Fin 256)) : Option (List Char) :=
  match fs with
  | [] => none
  | f :: rest =>
    match f bs with
    | some s => some s
    | none => firstSuccess rest bs

/-- The body-decoding portion of make_request: try the encodings in
order, first success wins; if all fail fall back to a lossy utf-8
decode instead of failing. -/
def decodeHtml (bs : List (Fin 256)) : String :=
  match firstSuccess decodeAttempts bs with
  | some cs => ⟨cs⟩
  | none => ⟨utf8DecodeIgnore bs⟩

/-! ### The oracle world: network, robots matcher, HTML soup, urljoin -/

/-- External collaborators of the crawler, as oracles.  A none result
models a raised exception. -/
structure World where
  /-- robots.txt was retrieved and parsed without an exception. -/
  robotsAvailable : Bool
  /-- RobotFileParser.can_fetch("*", url): none models an internal
  matching error (exception). -/
  robotsMatch : String → Option Bool
  /-- urlopen for a page: none models HTTPError/URLError/other
  exceptions, otherwise the Content-Type header and the body bytes. -/
  response : String → Option (String × List (Fin 256))
  /-- BeautifulSoup: stripped text of the title tag, if any. -/
  titleText : String → Option String
  /-- BeautifulSoup: stripped texts of the p tags, in document order. -/
  paragraphs : String → List String
  /-- BeautifulSoup: (href, text) of the a[href] tags inside body. -/
  anchors : String → List (String × String)
  /-- urllib.parse.urljoin. -/
  urljoin : String → String → String

/-- can_fetch of the crawler: permissive when robots.txt was not
loaded, and permissive when the matcher raises. -/
def canFetchRun (W : World) (url : String) : Bool :=
  if W.robotsAvailable then
    match W.robotsMatch url with
    | some b => b
    | none => true
  else true

/-- make_request: none on any network exception and on non-HTML
content types; otherwise the decoded body. -/
def makeRequest (W : World) (url : String) : Option String :=
  match W.response url with
  | none => none
  | some (ct, body) =>
    if isInfixB "text/html".data ct.data then some (decodeHtml body)
    else none

/-! ### Extractor (extract_content, crawler.py lines 119-177) -/

/-- A link record {url, text}. -/
structure Link where
  url : String
  text : String
deriving DecidableEq, Repr

/-- A page record {title, url, first_paragraph, links}. -/
structure Page where
  title : String
  url : String
  first_paragraph : String
  links : List Link
deriving DecidableEq, Repr

/-- The first paragraph rule: first p whose stripped text is non-empty
and longer than 20 characters, else the very first p, else empty. -/
def firstParagraphOf (ps : List String) : String :=
  match ps.find? (fun t => t ≠ "" && t.length > 20) with
  | some t => t
  | none =>
    match ps.head? with
    | some t => t
    | none => ""

/-- Skip rule for raw hrefs: empty, javascript:, mailto:, tel:, or a
pure fragment reference. -/
def skipHref (href : String) : Bool :=
  href == "" || isPrefixB "javascript:".data href.data ||
    isPrefixB "mailto:".data href.data || isPrefixB "tel:".data href.data ||
    isPrefixB "#".data href.data

/-- The cross-domain filter: continue (drop the link) when the resolved
netloc is non-empty and differs from base_domain. -/
def linkAllowed (base : Option (List Char)) (full : String) : Bool :=
  let nl := (urlparse full).netloc
  !(nl ≠ [] && some nl ≠ base)

/-- Fragment-stripped canonical form kept by the extractor. -/
def cleanLink (full : String) : String :=
  ⟨urlunparseL (dropFragment (urlparse full))⟩

/-- Anchor text: strip, truncate to 100 characters, placeholder when
empty. -/
def linkTextOf (t : String) : String :=
  let t100 : List Char := (pyStrip t.data).take 100
  if t100 = [] then "Lien sans texte" else ⟨t100⟩

/-- extract_content: title, first paragraph and the filtered, resolved,
fragment-stripped links of a page. -/
def extractContent (W : World) (base : Option (List Char))
    (html url : String) : Page :=
  { title :=
      match W.titleText html with
      | some t => t
      | none => "Sans titre"
    url := url
    first_paragraph := firstParagraphOf (W.paragraphs html)
    links :=
      (W.anchors html).filterMap (fun a =>
        if skipHref a.1 then none
        else
          let full := W.urljoin url a.1
          if linkAllowed base full then
            some { url := cleanLink full, text := linkTextOf a.2 }
          else none) }

/-! ### Frontier (PriorityQueue, get_priority, add_url_to_queue) -/

/-- A frontier entry (priority, url). -/
abbrev Entry := Nat × String

/-- get_priority: 0 for URLs containing "product" (case-insensitive),
else 1. -/
def getPriority (url : String) : Nat :=
  if isInfixB "product".data (url.data.map Char.toLower) then 0 else 1

/-- Python tuple comparison (p, u) <= (q, v): priority first, then
lexicographic string comparison of the URLs. -/
def entryLeB (a b : Entry) : Bool :=
  a.1 < b.1 || (a.1 == b.1 && strLeB a.2.data b.2.data)

/-- The minimum entry of e :: l under entryLeB. -/
def minEntry : Entry → List Entry → Entry
  | e, [] => e
  | e, f :: r => if entryLeB e f then minEntry e r else minEntry f r

/-- PriorityQueue.put: the queue as a multiset of entries. -/
def pqPush (q : List Entry) (e : Entry) : List Entry :=
  q ++ [e]

/-- Remove the first occurrence of an entry. -/
def pqRemove (m : Entry) : List Entry → List Entry
  | [] => []
  | e :: r => if e = m then r else e :: pqRemove m r

/-- PriorityQueue.get: remove and return a minimum entry. -/
def pqPop : List Entry → Option (Entry × List Entry)
  | [] => none
  | e :: r =>
    let m := minEntry e r
    some (m, pqRemove m (e :: r))

/-- Repeatedly dequeue (with fuel). -/
def pqDrain : Nat → List Entry → List Entry
  | 0, _ => []
  | n + 1, q =>
    match pqPop q with
    | none => []
    | some (e, rest) => e :: pqDrain n rest

/-! ### Crawl state and loop (crawl, crawler.py lines 203-256) -/

/-- The mutable state of one crawl run.  fetched and enqueuedLog are
ghost instrumentation recording every make_request call and every URL
ever inserted into the queue; the code fields are queue, visited,
results and pagesCrawled. -/
structure CrawlState where
  queue : List Entry
  visited : List String
  results : List Page
  pagesCrawled : Nat
  fetched : List String
  enqueuedLog : List String
deriving DecidableEq, Repr

/-- The crawler object: seed URL and page budget (the politeness delay
has no observable effect in the model). -/
structure Crawler where
  startUrl : String
  maxPages : Nat
deriving DecidableEq, Repr

/-- add_url_to_queue: suppress visited URLs and URLs already pending
anywhere in the queue, otherwise insert with computed priority. -/
def addUrlToQueue (st : CrawlState) (url : String) : CrawlState :=
  if url ∈ st.visited then st
  else if st.queue.any (fun e => e.2 == url) then st
  else
    { st with
      queue := pqPush st.queue (getPriority url, url)
      enqueuedLog := st.enqueuedLog ++ [url] }

/-- One turn of the link loop of crawl() (lines 246-249): a link not
already visited is offered to add_url_to_queue. -/
def offerLink (s : CrawlState) (l : Link) : CrawlState :=
  if l.url ∈ s.visited then s else addUrlToQueue s l.url

/-- The link-enqueueing loop of crawl() (lines 246-249). -/
def enqueueLinks (links : List Link) (st : CrawlState) : CrawlState :=
  links.foldl offerLink st

/-- The empty state at the start of crawl(). -/
def emptyState : CrawlState :=
  ⟨[], [], [], 0, [], []⟩

/-- One iteration of the while loop of crawl().  A terminal state
(empty queue or exhausted budget) is a fixed point. -/
def crawlStep (W : World) (c : Crawler) (st : CrawlState) : CrawlState :=
  if st.pagesCrawled < c.maxPages then
    match pqPop st.queue with
    | none => st
    | some (e, rest) =>
      let current := e.2
      if current ∈ st.visited then { st with queue := rest }
      else
        let st1 :=
          { st with queue := rest, visited := current :: st.visited }
        if canFetchRun W current then
          let st2 := { st1 with fetched := st1.fetched ++ [current] }
          match makeRequest W current with
          | none => st2
          | some html =>
            if html == "" then st2
            else
              let page := extractContent W (baseDomainOf c.startUrl) html current
              let st3 := { st2 with results := st2.results ++ [page] }
              let st4 := enqueueLinks page.links st3
              { st4 with pagesCrawled := st4.pagesCrawled + 1 }
        else st1
  else st

/-- The seeding phase of crawl(): fetch_robots_txt builds the robots
URL by concatenating "https://" with base_domain, which raises a
TypeError when base_domain is Python None; afterwards the seed URL is
enqueued verbatim.  none models the raised TypeError. -/
def initCrawl (c : Crawler) : Option CrawlState :=
  match baseDomainOf c.startUrl with
  | none => none
  | some _ => some (addUrlToQueue emptyState c.startUrl)

/-- The state after n loop iterations of a crawl run (none when
seeding raised). -/
def crawlRun (W : World) (c : Crawler) (n : Nat) : Option CrawlState :=
  (initCrawl c).map (fun st0 => (crawlStep W c)^[n] st0)

/-! ### Character-level lemmas -/

theorem toNat_ofNat_valid (n : Nat) (h : n < 0xd800) : (Char.ofNat n).toNat = n := by
  rw [Char.ofNat, dif_pos (Or.inl h : Nat.isValidChar n)]
  simp [Char.ofNatAux, Char.toNat, UInt32.toNat, UInt32.ofNat']

theorem toLower_toNat (c : Char) :
    (Char.toLower c).toNat =
      if 65 ≤ c.toNat ∧ c.toNat ≤ 90 then c.toNat + 32 else c.toNat := by
  unfold Char.toLower
  simp only []
  split
  · next h => exact toNat_ofNat_valid _ (by omega)
  · rfl

theorem isUpper_iff (c : Char) : c.isUpper = true ↔ 65 ≤ c.toNat ∧ c.toNat ≤ 90 := by
  simp [Char.isUpper, Char.toNat]
  exact Iff.rfl

theorem isLower_iff (c : Char) : c.isLower = true ↔ 97 ≤ c.toNat ∧ c.toNat ≤ 122 := by
  simp [Char.isLower, Char.toNat]
  exact Iff.rfl

theorem isDigit_iff (c : Char) : c.isDigit = true ↔ 48 ≤ c.toNat ∧ c.toNat ≤ 57 := by
  simp [Char.isDigit, Char.toNat]
  exact Iff.rfl

theorem char_eq_iff_toNat (c d : Char) : c = d ↔ c.toNat = d.toNat := by
  constructor
  · rintro rfl; rfl
  · intro h; exact Char.ext (UInt32.ext h)

theorem isAlpha_iff (c : Char) :
    c.isAlpha = true ↔ (65 ≤ c.toNat ∧ c.toNat ≤ 90) ∨ (97 ≤ c.toNat ∧ c.toNat ≤ 122) := by
  simp [Char.isAlpha, isUpper_iff, isLower_iff]

theorem schemeChar_iff (c : Char) :
    schemeChar c = true ↔
      (65 ≤ c.toNat ∧ c.toNat ≤ 90) ∨ (97 ≤ c.toNat ∧ c.toNat ≤ 122) ∨
        (48 ≤ c.toNat ∧ c.toNat ≤ 57) ∨ c.toNat = 43 ∨ c.toNat = 45 ∨ c.toNat = 46 := by
  have hplus : ('+').toNat = 43 := rfl
  have hminus : ('-').toNat = 45 := rfl
  have hdot : ('.').toNat = 46 := rfl
  simp only [schemeChar, Char.isAlphanum, Bool.or_eq_true, isAlpha_iff, isDigit_iff,
    beq_iff_eq, char_eq_iff_toNat, hplus, hminus, hdot]
  tauto

theorem schemeChar_toLower {c : Char} (h : schemeChar c = true) :
    schemeChar (Char.toLower c) = true := by
  rw [schemeChar_iff] at h ⊢
  rw [toLower_toNat]
  split <;> omega

theorem isAlpha_toLower {c : Char} (h : c.isAlpha = true) :
    (Char.toLower c).isAlpha = true := by
  rw [isAlpha_iff] at h ⊢
  rw [toLower_toNat]
  split <;> omega

theorem toLower_idem (c : Char) : Char.toLower (Char.toLower c) = Char.toLower c := by
  rw [char_eq_iff_toNat, toLower_toNat, toLower_toNat]
  by_cases h : 65 ≤ c.toNat ∧ c.toNat ≤ 90
  · rw [if_pos h, if_neg (by omega)]
  · rw [if_neg h, if_neg h]

theorem schemeChar_ne_colon {c : Char} (h : schemeChar c = true) : c ≠ ':' := by
  rw [schemeChar_iff] at h
  rw [Ne, char_eq_iff_toNat]
  have : (':').toNat = 58 := by decide
  omega

theorem schemeChar_ne_question {c : Char} (h : schemeChar c = true) : c ≠ '?' := by
  rw [schemeChar_iff] at h
  rw [Ne, char_eq_iff_toNat]
  have : ('?').toNat = 63 := by decide
  omega

/-! ### breakAtFirst lemmas -/

theorem breakAtFirst_append (p : Char → Bool) (l : List Char) :
    (breakAtFirst p l).1 ++ (breakAtFirst p l).2 = l := by
  induction l with
  | nil => rfl
  | cons c r ih =>
    by_cases h : p c <;> simp [breakAtFirst, h, ih]

theorem breakAtFirst_fst_not (p : Char → Bool) (l : List Char) :
    ∀ c ∈ (breakAtFirst p l).1, p c = false := by
  induction l with
  | nil => simp [breakAtFirst]
  | cons c r ih =>
    by_cases h : p c <;> simp [breakAtFirst, h]
    intro d hd
    exact ih d hd

theorem breakAtFirst_snd_head (p : Char → Bool) (l : List Char) :
    ∀ c t, (breakAtFirst p l).2 = c :: t → p c = true := by
  induction l with
  | nil => intro c t h; simp [breakAtFirst] at h
  | cons a r ih =>
    intro c t h
    by_cases ha : p a
    · simp only [breakAtFirst, ha, if_true] at h
      cases h
      exact ha
    · simp only [breakAtFirst, ha, if_false, Bool.false_eq_true] at h
      exact ih c t h

theorem breakAtFirst_of (p : Char → Bool) (a b : List Char)
    (ha : ∀ c ∈ a, p c = false)
    (hb : b = [] ∨ ∃ c t, b = c :: t ∧ p c = true) :
    breakAtFirst p (a ++ b) = (a, b) := by
  induction a with
  | nil =>
    rcases hb with rfl | ⟨c, t, rfl, hc⟩
    · rfl
    · simp [breakAtFirst, hc]
  | cons c r ih =>
    have hc : p c = false := ha c (by simp)
    simp only [List.cons_append, breakAtFirst, hc, Bool.false_eq_true, if_false, List.append_eq]
    rw [ih (fun d hd => ha d (by simp [hd]))]

theorem breakAtFirst_none (p : Char → Bool) (l : List Char)
    (h : ∀ c ∈ l, p c = false) : breakAtFirst p l = (l, []) := by
  have := breakAtFirst_of p l [] h (Or.inl rfl)
  simpa using this

theorem breakAtFirst_append_free (p : Char → Bool) (x z : List Char)
    (hx : ∀ c ∈ x, p c = false) :
    breakAtFirst p (x ++ z) = (x ++ (breakAtFirst p z).1, (breakAtFirst p z).2) := by
  induction x with
  | nil => simp
  | cons c r ih =>
    have hc : p c = false := hx c (by simp)
    simp only [List.cons_append, breakAtFirst, hc, Bool.false_eq_true, if_false, List.append_eq]
    rw [ih (fun d hd => hx d (by simp [hd]))]

theorem isPrefixB_one (c : Char) (l : List Char) :
    isPrefixB [c] l = true ↔ ∃ t, l = c :: t := by
  cases l with
  | nil => simp [isPrefixB]
  | cons a t =>
    simp only [isPrefixB, Bool.and_true, beq_iff_eq]
    constructor
    · rintro rfl; exact ⟨t, rfl⟩
    · rintro ⟨t2, h⟩; cases h; rfl

theorem isPrefixB_two (c d : Char) (l : List Char) :
    isPrefixB [c, d] l = true ↔ ∃ t, l = c :: d :: t := by
  cases l with
  | nil => simp [isPrefixB]
  | cons a t =>
    cases t with
    | nil => simp [isPrefixB]
    | cons b t2 =>
      simp only [isPrefixB, Bool.and_true, Bool.and_eq_true, beq_iff_eq]
      constructor
      · rintro ⟨rfl, rfl⟩; exact ⟨t2, rfl⟩
      · rintro ⟨t3, h⟩; cases h; exact ⟨rfl, rfl⟩

theorem splitAtSep_fst_free (sep : Char) (s : List Char) :
    ∀ c ∈ (splitAtSep sep s).1, (c == sep) = false := by
  intro c hc
  exact breakAtFirst_fst_not _ s c hc

theorem splitAtSep_join (sep : Char) (s : List Char) :
    s = (splitAtSep sep s).1 ++ sep :: (splitAtSep sep s).2 ∨
      ((splitAtSep sep s).1 = s ∧ (splitAtSep sep s).2 = []) := by
  have happ := breakAtFirst_append (fun c => c == sep) s
  simp only [splitAtSep]
  rcases hbf : (breakAtFirst (fun c => c == sep) s).2 with _ | ⟨d, post⟩
  · right
    rw [hbf] at happ
    refine ⟨by simpa using happ, rfl⟩
  · left
    have hd : (d == sep) = true := breakAtFirst_snd_head _ s d post hbf
    have hd2 : d = sep := by simpa using hd
    rw [hbf, hd2] at happ
    simp only [List.tail_cons]
    exact happ.symm

theorem splitAtSep_pref (sep : Char) (s : List Char) :
    ∃ d, s = (splitAtSep sep s).1 ++ d := by
  rcases splitAtSep_join sep s with h | ⟨h, _⟩
  · exact ⟨sep :: (splitAtSep sep s).2, h⟩
  · exact ⟨[], by simp [h]⟩

theorem splitParams_join (u : List Char) :
    u = (splitParams u).1 ++ ';' :: (splitParams u).2 ∨
      ((splitParams u).1 = u ∧ (splitParams u).2 = []) := by
  simp only [splitParams]
  by_cases hs : '/' ∈ u
  · rw [if_pos hs]
    rcases hbf : (breakAtFirst (fun c => c == ';')
        (breakAtFirst (fun c => c == '/') u.reverse).1.reverse).2 with _ | ⟨d, b2⟩
    · right
      simp
    · left
      simp only [ne_eq, reduceCtorEq, not_false_eq_true, if_true, List.tail_cons]
      have hd : (d == ';') = true :=
        breakAtFirst_snd_head _ _ d b2 hbf
      have hd2 : d = ';' := by simpa using hd
      have happ2 := breakAtFirst_append (fun c => c == ';')
        (breakAtFirst (fun c => c == '/') u.reverse).1.reverse
      rw [hbf, hd2] at happ2
      have happ := breakAtFirst_append (fun c => c == '/') u.reverse
      have hu : u = (breakAtFirst (fun c => c == '/') u.reverse).2.reverse ++
          (breakAtFirst (fun c => c == '/') u.reverse).1.reverse := by
        have h2 := congrArg List.reverse happ
        simpa [List.reverse_append] using h2.symm
      rw [List.append_assoc, happ2]
      exact hu
  · rw [if_neg hs]
    rcases hbf : (breakAtFirst (fun c => c == ';') u).2 with _ | ⟨d, post⟩
    · right
      simp
    · left
      simp only [ne_eq, reduceCtorEq, not_false_eq_true, if_true, List.tail_cons]
      have hd : (d == ';') = true := breakAtFirst_snd_head _ u d post hbf
      have hd2 : d = ';' := by simpa using hd
      have happ := breakAtFirst_append (fun c => c == ';') u
      rw [hbf, hd2] at happ
      exact happ.symm

theorem splitNetloc_fst_free (s : List Char) :
    ∀ c ∈ (splitNetloc s).1, netlocDelim c = false := by
  intro c hc
  unfold splitNetloc at hc
  by_cases h : isPrefixB ['/', '/'] s = true
  · rw [if_pos h] at hc
    exact breakAtFirst_fst_not _ _ c hc
  · rw [if_neg h] at hc
    simp at hc

theorem splitNetloc_mk (nl t : List Char)
    (hnl : ∀ c ∈ nl, netlocDelim c = false)
    (ht : t = [] ∨ ∃ c t2, t = c :: t2 ∧ netlocDelim c = true) :
    splitNetloc ('/' :: '/' :: (nl ++ t)) = (nl, t) := by
  unfold splitNetloc
  rw [if_pos (by rw [isPrefixB_two]; exact ⟨nl ++ t, rfl⟩)]
  simpa using breakAtFirst_of netlocDelim nl t hnl ht

theorem splitNetloc_not2 (s : List Char) (h : isPrefixB ['/', '/'] s = false) :
    splitNetloc s = ([], s) := by
  unfold splitNetloc
  rw [h]
  simp

theorem splitNetloc_cases (s : List Char) :
    (s = '/' :: '/' :: ((splitNetloc s).1 ++ (splitNetloc s).2) ∧
      ((splitNetloc s).2 = [] ∨
        ∃ c t2, (splitNetloc s).2 = c :: t2 ∧ netlocDelim c = true)) ∨
      ((splitNetloc s).1 = [] ∧ (splitNetloc s).2 = s) := by
  unfold splitNetloc
  by_cases h : isPrefixB ['/', '/'] s = true
  · rw [if_pos h]
    obtain ⟨t, rfl⟩ := (isPrefixB_two '/' '/' s).1 h
    left
    constructor
    · simp [breakAtFirst_append netlocDelim t]
    · rcases hbf : (breakAtFirst netlocDelim t).2 with _ | ⟨c, t2⟩
      · exact Or.inl hbf
      · exact Or.inr ⟨c, t2, hbf, breakAtFirst_snd_head _ t c t2 hbf⟩
  · rw [if_neg h]
    right
    exact ⟨rfl, rfl⟩

theorem headI_map_toLower (l : List Char) (h : l ≠ []) :
    (l.map Char.toLower).headI = Char.toLower l.headI := by
  cases l with
  | nil => exact absurd rfl h
  | cons a t => rfl

theorem splitScheme_mk (sch t : List Char) (h1 : sch ≠ [])
    (h2 : ∀ c ∈ sch, schemeChar c = true) (h3 : sch.headI.isAlpha = true)
    (h4 : sch.map Char.toLower = sch) :
    splitScheme (sch ++ ':' :: t) = (sch, t) := by
  have hbf : breakAtFirst (fun c => c == ':') (sch ++ ':' :: t) = (sch, ':' :: t) :=
    breakAtFirst_of _ sch (':' :: t)
      (fun c hc => by
        have := schemeChar_ne_colon (h2 c hc)
        simpa using this)
      (Or.inr ⟨':', t, rfl, by simp⟩)
  simp only [splitScheme, hbf]
  rw [if_pos]
  · simp [h4]
  · simp only [Bool.and_eq_true, decide_eq_true_eq, List.all_eq_true]
    exact ⟨⟨⟨by simp, h1⟩, h2⟩, h3⟩

theorem splitScheme_nocolon (s : List Char)
    (h : ∀ c ∈ s, (c == ':') = false) : splitScheme s = ([], s) := by
  have hbf : breakAtFirst (fun c => c == ':') s = (s, []) :=
    breakAtFirst_none _ s h
  simp [splitScheme, hbf]

theorem splitScheme_cases (s : List Char) :
    splitScheme s = ([], s) ∨
      ∃ pre, s = pre ++ ':' :: (splitScheme s).2 ∧
        (splitScheme s).1 = pre.map Char.toLower ∧ pre ≠ [] ∧
        (∀ c ∈ pre, schemeChar c = true) ∧ pre.headI.isAlpha = true ∧
        (∀ c ∈ pre, (c == ':') = false) := by
  rcases hbf : breakAtFirst (fun c => c == ':') s with ⟨pre, rest⟩
  have happ : pre ++ rest = s := by
    have := breakAtFirst_append (fun c => c == ':') s
    rw [hbf] at this
    exact this
  have hpre : ∀ c ∈ pre, (c == ':') = false := by
    intro c hc
    have := breakAtFirst_fst_not (fun c => c == ':') s
    rw [hbf] at this
    exact this c hc
  simp only [splitScheme, hbf]
  by_cases hcond : (rest ≠ [] && pre ≠ [] && pre.all schemeChar && pre.headI.isAlpha) = true
  · right
    rw [if_pos hcond]
    simp only [Bool.and_eq_true, decide_eq_true_eq, List.all_eq_true] at hcond
    obtain ⟨⟨⟨hrest, hpre2⟩, hall⟩, halpha⟩ := hcond
    rcases rest with _ | ⟨d, post⟩
    · exact absurd rfl hrest
    · have hd : d = ':' := by
        have hb2 : (breakAtFirst (fun c => c == ':') s).2 = d :: post :=
          congrArg Prod.snd hbf
        have := breakAtFirst_snd_head (fun c => c == ':') s d post hb2
        simpa using this
      subst hd
      exact ⟨pre, by simp [← happ], rfl, hpre2, hall, halpha, hpre⟩
  · left
    rw [if_neg hcond]

theorem splitScheme_props (s : List Char) :
    (splitScheme s).1 = [] ∨
      ((splitScheme s).1 ≠ [] ∧ (∀ c ∈ (splitScheme s).1, schemeChar c = true) ∧
        (splitScheme s).1.headI.isAlpha = true ∧
        (splitScheme s).1.map Char.toLower = (splitScheme s).1) := by
  rcases splitScheme_cases s with h | ⟨pre, hs, hfst, hne, hall, halpha, hfree⟩
  · left
    rw [h]
  · right
    rw [hfst]
    refine ⟨by simpa using hne, ?_, ?_, ?_⟩
    · intro c hc
      simp only [List.mem_map] at hc
      obtain ⟨d, hd, rfl⟩ := hc
      exact schemeChar_toLower (hall d hd)
    · rw [headI_map_toLower pre hne]
      exact isAlpha_toLower halpha
    · rw [List.map_map]
      apply List.map_congr_left
      intro c _
      exact toLower_idem c

theorem splitScheme_fail_cond {a t : List Char}
    (ha : ∀ c ∈ a, (c == ':') = false)
    (hfail : splitScheme (a ++ ':' :: t) = ([], a ++ ':' :: t)) :
    ((a ≠ [] : Bool) && a.all schemeChar && a.headI.isAlpha) = false := by
  have hbf : breakAtFirst (fun c => c == ':') (a ++ ':' :: t) = (a, ':' :: t) :=
    breakAtFirst_of _ a (':' :: t) ha (Or.inr ⟨':', t, rfl, by simp⟩)
  by_contra hcond
  rw [Bool.not_eq_false] at hcond
  simp only [splitScheme, hbf] at hfail
  rw [if_pos (by
    simp only [Bool.and_eq_true] at hcond ⊢
    exact ⟨⟨⟨by simp, hcond.1.1⟩, hcond.1.2⟩, hcond.2⟩)] at hfail
  have h1 : a.map Char.toLower = [] := congrArg Prod.fst hfail
  have h2 : a = [] := by simpa using h1
  simp only [Bool.and_eq_true, decide_eq_true_eq] at hcond
  exact hcond.1.1 h2

theorem splitScheme_fail_transfer {a t t2 : List Char}
    (ha : ∀ c ∈ a, (c == ':') = false)
    (hfail : splitScheme (a ++ ':' :: t) = ([], a ++ ':' :: t)) :
    splitScheme (a ++ ':' :: t2) = ([], a ++ ':' :: t2) := by
  have hcond := splitScheme_fail_cond ha hfail
  have hbf : breakAtFirst (fun c => c == ':') (a ++ ':' :: t2) = (a, ':' :: t2) :=
    breakAtFirst_of _ a (':' :: t2) ha (Or.inr ⟨':', t2, rfl, by simp⟩)
  simp only [splitScheme, hbf]
  rw [if_neg]
  intro h
  simp only [Bool.and_eq_true] at h
  rw [Bool.and_eq_false_iff] at hcond
  rcases hcond with hc | hc
  · rw [Bool.and_eq_false_iff] at hc
    rcases hc with hc | hc
    · rw [h.1.1.2] at hc
      simp at hc
    · rw [h.1.2] at hc
      simp at hc
  · rw [h.2] at hc
    simp at hc

theorem splitScheme_head_nonalpha {c : Char} (t : List Char)
    (hc : c.isAlpha = false) : splitScheme (c :: t) = ([], c :: t) := by
  by_cases hcc : (c == ':') = true
  · have hc2 : c = ':' := by simpa using hcc
    subst hc2
    simp [splitScheme, breakAtFirst]
  · rcases hbf : breakAtFirst (fun c => c == ':') t with ⟨p1, p2⟩
    have hbf2 : breakAtFirst (fun c => c == ':') (c :: t) = (c :: p1, p2) := by
      simp only [breakAtFirst, hcc, Bool.false_eq_true, if_false, hbf]
    simp only [splitScheme, hbf2]
    rw [if_neg]
    simp only [List.headI_cons, Bool.and_eq_true, not_and]
    intro _
    rw [hc]
    simp

theorem isPrefixB_two_append_false (url0 q : List Char)
    (h : isPrefixB ['/', '/'] url0 = false)
    (hq : q = [] ∨ ∃ t, q = '?' :: t) :
    isPrefixB ['/', '/'] (url0 ++ q) = false := by
  rcases url0 with _ | ⟨a, _ | ⟨b, t⟩⟩
  · rcases hq with rfl | ⟨t, rfl⟩
    · rfl
    · simp [isPrefixB]
  · rcases hq with rfl | ⟨t, rfl⟩
    · simpa using h
    · simp [isPrefixB]
  · simp only [isPrefixB, List.cons_append] at h ⊢
    simpa using h

theorem splitScheme_freepart (x q : List Char)
    (hx : ∀ c ∈ x, (c == ':') = false)
    (hq : q = [] ∨ ∃ t, q = '?' :: t) :
    splitScheme (x ++ q) = ([], x ++ q) := by
  rcases hq with rfl | ⟨t, rfl⟩
  · rw [List.append_nil]
    exact splitScheme_nocolon x hx
  · have hq2 : ('?' == ':') = false := by decide
    have hbf2 : breakAtFirst (fun c => c == ':') ('?' :: t) =
        ('?' :: (breakAtFirst (fun c => c == ':') t).1,
          (breakAtFirst (fun c => c == ':') t).2) := by
      simp [breakAtFirst, hq2]
    have hbf := breakAtFirst_append_free (fun c => c == ':') x ('?' :: t) hx
    rw [hbf2] at hbf
    simp only [splitScheme, hbf]
    rw [if_neg]
    intro hcond
    simp only [Bool.and_eq_true, List.all_eq_true] at hcond
    have := hcond.1.2 '?' (by simp)
    simp [schemeChar] at this

theorem firstColon_decomp (x : List Char) (h : ':' ∈ x) :
    ∃ a b, x = a ++ ':' :: b ∧ ∀ c ∈ a, (c == ':') = false := by
  rcases hbf : (breakAtFirst (fun c => c == ':') x).2 with _ | ⟨d, post⟩
  · exfalso
    have happ := breakAtFirst_append (fun c => c == ':') x
    rw [hbf, List.append_nil] at happ
    have := breakAtFirst_fst_not (fun c => c == ':') x ':' (by rw [happ]; exact h)
    simp at this
  · have hd : d = ':' := by
      have := breakAtFirst_snd_head (fun c => c == ':') x d post hbf
      simpa using this
    subst hd
    have happ := breakAtFirst_append (fun c => c == ':') x
    rw [hbf] at happ
    exact ⟨(breakAtFirst (fun c => c == ':') x).1, post, happ.symm,
      breakAtFirst_fst_not (fun c => c == ':') x⟩

theorem breakAtFirst_snd_nil (p : Char → Bool) (x : List Char)
    (h : (breakAtFirst p x).2 = []) : ∀ c ∈ x, p c = false := by
  intro c hc
  have happ := breakAtFirst_append p x
  rw [h, List.append_nil] at happ
  exact breakAtFirst_fst_not p x c (by rw [happ]; exact hc)

/-- Parsing the fragment-stripped unparse of a parsed URL yields the
netloc of the original parse: the extractor's cleaned link keeps the
host that the cross-domain filter inspected. -/
theorem netloc_roundtrip (s : List Char) :
    (urlparseL (urlunparseL (dropFragment (urlparseL s)))).netloc = (urlparseL s).netloc := by
  obtain ⟨sch, rest1, hsr⟩ : ∃ a b, splitScheme s = (a, b) := ⟨_, _, rfl⟩
  obtain ⟨nl, rest2, hnr⟩ : ∃ a b, splitNetloc rest1 = (a, b) := ⟨_, _, rfl⟩
  obtain ⟨preF, frag, hfr⟩ : ∃ a b, splitAtSep '#' rest2 = (a, b) := ⟨_, _, rfl⟩
  obtain ⟨core, query, hqr⟩ : ∃ a b, splitAtSep '?' preF = (a, b) := ⟨_, _, rfl⟩
  obtain ⟨path, params, hpp⟩ :
      ∃ a b, (if ';' ∈ core then splitParams core else (core, [])) = (a, b) := ⟨_, _, rfl⟩
  have hparse : urlparseL s = ⟨sch, nl, path, params, query, frag⟩ := by
    simp only [urlparseL, hsr, hnr, hfr, hqr, hpp]
  rw [hparse]
  simp only [dropFragment]
  set url0 : List Char := if params = [] then path else path ++ ';' :: params with hurl0
  set gad : List Char :=
    if url0 ≠ [] ∧ ¬ isPrefixB ['/'] url0 then '/' :: url0 else url0 with hgad
  set url1 : List Char :=
    if nl ≠ [] ∨ isPrefixB ['/', '/'] url0 then '/' :: '/' :: nl ++ gad else url0 with hurl1
  set url2 : List Char := if sch ≠ [] then sch ++ ':' :: url1 else url1 with hurl2
  set q : List Char := if query ≠ [] then '?' :: query else [] with hq0
  have hqshape : q = [] ∨ ∃ t, q = '?' :: t := by
    rw [hq0]
    by_cases h : query ≠ [] <;> simp [h]
  have hunp : urlunparseL ⟨sch, nl, path, params, query, []⟩ = url2 ++ q := by
    simp only [urlunparseL, ← hurl0, ← hgad, ← hurl1, ← hurl2]
    rw [hq0]
    by_cases h : query ≠ [] <;> simp [h]
  rw [hunp]
  have hnlfree : ∀ c ∈ nl, netlocDelim c = false := by
    intro c hc
    apply splitNetloc_fst_free rest1
    rw [hnr]
    exact hc
  have hcorepref : ∃ d, core = url0 ++ d := by
    rw [hurl0]
    by_cases hsemi : ';' ∈ core
    · rw [if_pos hsemi] at hpp
      rcases splitParams_join core with hj | ⟨hj1, hj2⟩
      · rw [hpp] at hj
        by_cases hp : params = []
        · subst hp
          rw [if_pos rfl]
          exact ⟨';' :: [], by simpa using hj⟩
        · rw [if_neg hp]
          exact ⟨[], by simpa using hj⟩
      · rw [hpp] at hj1 hj2
        simp only at hj1 hj2
        subst hj2
        rw [if_pos rfl]
        exact ⟨[], by simp [hj1.symm]⟩
    · rw [if_neg hsemi] at hpp
      cases hpp
      rw [if_pos rfl]
      exact ⟨[], by simp⟩
  have hpreFpref : ∃ d, preF = core ++ d := by
    have := splitAtSep_pref '?' preF
    rw [hqr] at this
    exact this
  have hrest2pref : ∃ d, rest2 = preF ++ d := by
    have := splitAtSep_pref '#' rest2
    rw [hfr] at this
    exact this
  have hrest2url0 : ∃ d, rest2 = url0 ++ d := by
    obtain ⟨d1, h1⟩ := hcorepref
    obtain ⟨d2, h2⟩ := hpreFpref
    obtain ⟨d3, h3⟩ := hrest2pref
    exact ⟨d1 ++ d2 ++ d3, by rw [h3, h2, h1]; simp⟩
  have hcoreq : ∀ c ∈ core, (c == '?') = false := by
    intro c hc
    apply splitAtSep_fst_free '?' preF
    rw [hqr]
    exact hc
  have hpreFh : ∀ c ∈ preF, (c == '#') = false := by
    intro c hc
    apply splitAtSep_fst_free '#' rest2
    rw [hfr]
    exact hc
  have hss : splitScheme (url2 ++ q) = (sch, url1 ++ q) := by
    rcases splitScheme_props s with hp0 | ⟨hne, hall, halpha, hfix⟩
    · -- scheme is empty
      rw [hsr] at hp0
      simp only at hp0
      subst hp0
      rw [hurl2, if_neg (by simp)]
      by_cases hc1 : (nl ≠ [] ∨ isPrefixB ['/', '/'] url0 = true)
      · rw [hurl1, if_pos hc1]
        have hsh : ('/' :: '/' :: nl ++ gad) ++ q = '/' :: (('/' :: nl ++ gad) ++ q) := by
          simp
        rw [hsh]
        exact splitScheme_head_nonalpha _ (by decide)
      · rw [hurl1, if_neg hc1]
        push_neg at hc1
        obtain ⟨hnl0, hpref2⟩ := hc1
        have hpref2f : isPrefixB ['/', '/'] url0 = false := by
          simpa using hpref2
        by_cases hcolon : ':' ∈ url0
        · by_cases hslash : isPrefixB ['/'] url0 = true
          · obtain ⟨t, ht⟩ := (isPrefixB_one '/' url0).1 hslash
            rw [ht, List.cons_append]
            exact splitScheme_head_nonalpha _ (by decide)
          · have hrest1s : rest1 = s := by
              rcases splitScheme_cases s with hl | ⟨pre, _, hfst, hpre, _, _, _⟩
              · rw [hsr] at hl
                exact (Prod.mk.injEq _ _ _ _ ▸ hl).2
              · exfalso
                rw [hsr] at hfst
                simp only at hfst
                exact hpre (by simpa using hfst.symm)
            have hrest2s : rest2 = s := by
              rcases splitNetloc_cases rest1 with ⟨hsh, hshape⟩ | ⟨h1, h2⟩
              · exfalso
                rw [hnr] at hsh hshape
                simp only at hsh hshape
                obtain ⟨D, hD⟩ := hrest2url0
                rcases hu0 : url0 with _ | ⟨u0h, u0t⟩
                · rw [hu0] at hcolon
                  simp at hcolon
                have hrest2cons : rest2 = u0h :: (u0t ++ D) := by
                  rw [hD, hu0]
                  simp
                rcases hshape with h0 | ⟨c, t2, hct, hdel⟩
                · rw [h0] at hrest2cons
                  exact absurd hrest2cons (by simp)
                · rw [hrest2cons] at hct
                  have hcu : c = u0h := (List.cons.injEq _ _ _ _ ▸ hct).1.symm
                  subst hcu
                  have hmemcore : c ∈ core := by
                    obtain ⟨d1, h1⟩ := hcorepref
                    rw [h1, hu0]
                    simp
                  have hmempreF : c ∈ preF := by
                    obtain ⟨d2, h2⟩ := hpreFpref
                    rw [h2]
                    exact List.mem_append_left _ hmemcore
                  have hq1 : (c == '?') = false := hcoreq c hmemcore
                  have hq2 : (c == '#') = false := hpreFh c hmempreF
                  have hq3 : c ≠ '/' := by
                    intro hcs
                    apply hslash
                    rw [isPrefixB_one]
                    exact ⟨u0t, by rw [hu0, hcs]⟩
                  simp only [netlocDelim, Bool.or_eq_true, beq_iff_eq] at hdel
                  rcases hdel with (h | h) | h
                  · exact hq3 h
                  · rw [h] at hq1
                    simp at hq1
                  · rw [h] at hq2
                    simp at hq2
              · rw [hnr] at h1 h2
                simp only at h1 h2
                rw [h2, hrest1s]
            obtain ⟨a, b, hab, hafree⟩ := firstColon_decomp url0 hcolon
            obtain ⟨D, hD⟩ := hrest2url0
            have hsdecomp : s = a ++ ':' :: (b ++ D) := by
              rw [← hrest2s, hD, hab]
              simp
            have hfail0 : splitScheme s = ([], s) := by
              rcases splitScheme_cases s with hl | ⟨pre, _, hfst, hpre, _, _, _⟩
              · exact hl
              · exfalso
                rw [hsr] at hfst
                simp only at hfst
                exact hpre (by simpa using hfst.symm)
            have hfail : splitScheme (a ++ ':' :: (b ++ D)) = ([], a ++ ':' :: (b ++ D)) := by
              rw [← hsdecomp]
              exact hfail0
            have htr := @splitScheme_fail_transfer a (b ++ D) (b ++ q) hafree hfail
            have hout : url0 ++ q = a ++ ':' :: (b ++ q) := by
              rw [hab]
              simp
            rw [hout]
            exact htr
        · exact splitScheme_freepart url0 q
            (fun c hc => by
              have : c ≠ ':' := fun h => hcolon (h ▸ hc)
              simpa using this)
            hqshape
    · -- scheme is non-empty
      rw [hsr] at hne hall halpha hfix
      simp only at hne hall halpha hfix
      rw [hurl2, if_pos hne]
      have hsh : (sch ++ ':' :: url1) ++ q = sch ++ ':' :: (url1 ++ q) := by
        simp
      rw [hsh]
      exact splitScheme_mk sch (url1 ++ q) hne hall halpha hfix
  simp only [urlparseL, hss]
  by_cases hc1 : (nl ≠ [] ∨ isPrefixB ['/', '/'] url0 = true)
  · rw [hurl1, if_pos hc1]
    have hsh : ('/' :: '/' :: nl ++ gad) ++ q = '/' :: '/' :: (nl ++ (gad ++ q)) := by
      simp
    rw [hsh]
    have hshape : gad ++ q = [] ∨ ∃ c t2, gad ++ q = c :: t2 ∧ netlocDelim c = true := by
      rw [hgad]
      by_cases hg : url0 ≠ [] ∧ ¬ isPrefixB ['/'] url0 = true
      · rw [if_pos hg]
        exact Or.inr ⟨'/', url0 ++ q, by simp, by decide⟩
      · rw [if_neg hg]
        push_neg at hg
        by_cases h0 : url0 = []
        · rw [h0]
          rcases hqshape with hq1 | ⟨t, hq1⟩
          · rw [hq1]
            exact Or.inl rfl
          · rw [hq1]
            exact Or.inr ⟨'?', t, by simp, by decide⟩
        · have hsl := hg h0
          obtain ⟨t, ht⟩ := (isPrefixB_one '/' url0).1 hsl
          rw [ht]
          exact Or.inr ⟨'/', t ++ q, by simp, by decide⟩
    rw [splitNetloc_mk nl (gad ++ q) hnlfree hshape]
  · rw [hurl1, if_neg hc1]
    push_neg at hc1
    obtain ⟨hnl0, hp2⟩ := hc1
    rw [splitNetloc_not2 _ (isPrefixB_two_append_false url0 q (by simpa using hp2) hqshape)]
    simp [hnl0]

theorem parse_noHash (s : List Char) :
    '#' ∉ (urlparseL s).scheme ∧ '#' ∉ (urlparseL s).netloc ∧ '#' ∉ (urlparseL s).path ∧
      '#' ∉ (urlparseL s).params ∧ '#' ∉ (urlparseL s).query := by
  obtain ⟨sch, rest1, hsr⟩ : ∃ a b, splitScheme s = (a, b) := ⟨_, _, rfl⟩
  obtain ⟨nl, rest2, hnr⟩ : ∃ a b, splitNetloc rest1 = (a, b) := ⟨_, _, rfl⟩
  obtain ⟨preF, frag, hfr⟩ : ∃ a b, splitAtSep '#' rest2 = (a, b) := ⟨_, _, rfl⟩
  obtain ⟨core, query, hqr⟩ : ∃ a b, splitAtSep '?' preF = (a, b) := ⟨_, _, rfl⟩
  obtain ⟨path, params, hpp⟩ :
      ∃ a b, (if ';' ∈ core then splitParams core else (core, [])) = (a, b) := ⟨_, _, rfl⟩
  have hparse : urlparseL s = ⟨sch, nl, path, params, query, frag⟩ := by
    simp only [urlparseL, hsr, hnr, hfr, hqr, hpp]
  rw [hparse]
  simp only
  have hpreFh : ∀ c ∈ preF, (c == '#') = false := by
    intro c hc
    apply splitAtSep_fst_free '#' rest2
    rw [hfr]
    exact hc
  have hpreFh2 : '#' ∉ preF := fun h => by simpa using hpreFh '#' h
  have hcorepreF : ∃ d, preF = core ++ d := by
    have := splitAtSep_pref '?' preF
    rw [hqr] at this
    exact this
  have hcoreh : '#' ∉ core := by
    obtain ⟨d, hd⟩ := hcorepreF
    intro h
    exact hpreFh2 (by rw [hd]; exact List.mem_append_left _ h)
  have hqueryh : '#' ∉ query := by
    rcases splitAtSep_join '?' preF with hj | ⟨_, hj2⟩
    · rw [hqr] at hj
      simp only at hj
      intro h
      exact hpreFh2 (by rw [hj]; exact List.mem_append_right _ (by simp [h]))
    · rw [hqr] at hj2
      simp only at hj2
      rw [hj2]
      simp
  have hpathparams : '#' ∉ path ∧ '#' ∉ params := by
    by_cases hsemi : ';' ∈ core
    · rw [if_pos hsemi] at hpp
      rcases splitParams_join core with hj | ⟨hj1, hj2⟩
      · rw [hpp] at hj
        simp only at hj
        constructor
        · intro h
          exact hcoreh (by rw [hj]; exact List.mem_append_left _ h)
        · intro h
          exact hcoreh (by rw [hj]; exact List.mem_append_right _ (by simp [h]))
      · rw [hpp] at hj1 hj2
        simp only at hj1 hj2
        subst hj2
        rw [hj1]
        exact ⟨hcoreh, by simp⟩
    · rw [if_neg hsemi] at hpp
      cases hpp
      exact ⟨hcoreh, by simp⟩
  refine ⟨?_, ?_, hpathparams.1, hpathparams.2, hqueryh⟩
  · rcases splitScheme_props s with h0 | ⟨_, hall, _, _⟩
    · rw [hsr] at h0
      simp only at h0
      rw [h0]
      simp
    · rw [hsr] at hall
      simp only at hall
      intro h
      have := hall '#' h
      simp [schemeChar] at this
  · intro h
    have := splitNetloc_fst_free rest1 '#' (by rw [hnr]; exact h)
    simp [netlocDelim] at this

theorem unparse_noHash (u : UrlParts) (h1 : '#' ∉ u.scheme) (h2 : '#' ∉ u.netloc)
    (h3 : '#' ∉ u.path) (h4 : '#' ∉ u.params) (h5 : '#' ∉ u.query)
    (h6 : u.fragment = []) : '#' ∉ urlunparseL u := by
  obtain ⟨sc, nl, pa, pr, qu, fr⟩ := u
  simp only at h1 h2 h3 h4 h5 h6
  subst h6
  simp only [urlunparseL]
  split_ifs <;> simp_all [List.mem_append, List.mem_cons]

/-- The cleaned link kept by the extractor contains no '#'. -/
theorem cleanLink_noHash (full : String) : '#' ∉ (cleanLink full).data := by
  show '#' ∉ urlunparseL (dropFragment (urlparseL full.data))
  have h := parse_noHash full.data
  exact unparse_noHash _ h.1 h.2.1 h.2.2.1 h.2.2.2.1 h.2.2.2.2 rfl

/-- The cleaned link kept by the extractor has the netloc that the
cross-domain filter inspected. -/
theorem cleanLink_netloc (full : String) : netlocOf (cleanLink full) = netlocOf full :=
  netloc_roundtrip full.data

/-! ### Frontier ordering lemmas -/

theorem char_lt_iff_toNat (c d : Char) : c < d ↔ c.toNat < d.toNat := Iff.rfl

theorem string_ext (s t : String) (h : s.data = t.data) : s = t := by
  cases s
  cases t
  cases h
  rfl

theorem strLeB_refl (a : List Char) : strLeB a a = true := by
  induction a with
  | nil => rfl
  | cons x xs ih =>
    simp only [strLeB]
    rw [if_neg (by simp [char_lt_iff_toNat]), if_neg (by simp [char_lt_iff_toNat])]
    exact ih

theorem strLeB_total (a b : List Char) : strLeB a b = true ∨ strLeB b a = true := by
  induction a generalizing b with
  | nil => left; rfl
  | cons x xs ih =>
    cases b with
    | nil => right; rfl
    | cons y ys =>
      simp only [strLeB]
      by_cases h1 : x < y
      · left
        rw [if_pos h1]
      · by_cases h2 : y < x
        · right
          rw [if_pos h2]
        · rw [if_neg h1, if_neg h2, if_neg h2, if_neg h1]
          exact ih ys

theorem strLeB_antisymm {a b : List Char} (h1 : strLeB a b = true)
    (h2 : strLeB b a = true) : a = b := by
  induction a generalizing b with
  | nil =>
    cases b with
    | nil => rfl
    | cons y ys => simp [strLeB] at h2
  | cons x xs ih =>
    cases b with
    | nil => simp [strLeB] at h1
    | cons y ys =>
      simp only [strLeB] at h1 h2
      by_cases hxy : x < y
      · rw [if_pos hxy] at h1
        rw [if_neg (fun hyx => by
            have n1 := (char_lt_iff_toNat x y).1 hxy
            have n2 := (char_lt_iff_toNat y x).1 hyx
            omega), if_pos hxy] at h2
        exact absurd h2 (by simp)
      · by_cases hyx : y < x
        · rw [if_neg hxy, if_pos hyx] at h1
          exact absurd h1 (by simp)
        · rw [if_neg hxy, if_neg hyx] at h1
          rw [if_neg hyx, if_neg hxy] at h2
          have hx : x = y := by
            rw [char_eq_iff_toNat]
            have n1 : ¬ x.toNat < y.toNat := fun h => hxy ((char_lt_iff_toNat x y).2 h)
            have n2 : ¬ y.toNat < x.toNat := fun h => hyx ((char_lt_iff_toNat y x).2 h)
            omega
          rw [hx, ih h1 h2]

theorem strLeB_trans {a b c : List Char} (h1 : strLeB a b = true)
    (h2 : strLeB b c = true) : strLeB a c = true := by
  induction a generalizing b c with
  | nil => rfl
  | cons x xs ih =>
    cases b with
    | nil => simp [strLeB] at h1
    | cons y ys =>
      cases c with
      | nil => simp [strLeB] at h2
      | cons z zs =>
        simp only [strLeB] at h1 h2 ⊢
        by_cases hxy : x < y
        · have nxy := (char_lt_iff_toNat x y).1 hxy
          by_cases hyz : y < z
          · have nyz := (char_lt_iff_toNat y z).1 hyz
            rw [if_pos ((char_lt_iff_toNat x z).2 (by omega))]
          · rw [if_neg hyz] at h2
            by_cases hzy : z < y
            · rw [if_pos hzy] at h2
              exact absurd h2 (by simp)
            · have n1 : ¬ y.toNat < z.toNat := fun h => hyz ((char_lt_iff_toNat y z).2 h)
              have n2 : ¬ z.toNat < y.toNat := fun h => hzy ((char_lt_iff_toNat z y).2 h)
              rw [if_pos ((char_lt_iff_toNat x z).2 (by omega))]
        · rw [if_neg hxy] at h1
          by_cases hyx : y < x
          · rw [if_pos hyx] at h1
            exact absurd h1 (by simp)
          · rw [if_neg hyx] at h1
            have n1 : ¬ x.toNat < y.toNat := fun h => hxy ((char_lt_iff_toNat x y).2 h)
            have n2 : ¬ y.toNat < x.toNat := fun h => hyx ((char_lt_iff_toNat y x).2 h)
            by_cases hyz : y < z
            · have nyz := (char_lt_iff_toNat y z).1 hyz
              rw [if_pos ((char_lt_iff_toNat x z).2 (by omega))]
            · rw [if_neg hyz] at h2
              by_cases hzy : z < y
              · rw [if_pos hzy] at h2
                exact absurd h2 (by simp)
              · rw [if_neg hzy] at h2
                have n3 : ¬ y.toNat < z.toNat := fun h => hyz ((char_lt_iff_toNat y z).2 h)
                have n4 : ¬ z.toNat < y.toNat := fun h => hzy ((char_lt_iff_toNat z y).2 h)
                rw [if_neg (fun h => by
                    have := (char_lt_iff_toNat x z).1 h
                    omega),
                  if_neg (fun h => by
                    have := (char_lt_iff_toNat z x).1 h
                    omega)]
                exact ih h1 h2

theorem entryLeB_refl (a : Entry) : entryLeB a a = true := by
  simp [entryLeB, strLeB_refl]

theorem entryLeB_total (a b : Entry) : entryLeB a b = true ∨ entryLeB b a = true := by
  simp only [entryLeB, Bool.or_eq_true, Bool.and_eq_true, decide_eq_true_eq, beq_iff_eq]
  rcases Nat.lt_trichotomy a.1 b.1 with h | h | h
  · exact Or.inl (Or.inl h)
  · rcases strLeB_total a.2.data b.2.data with hs | hs
    · exact Or.inl (Or.inr ⟨h, hs⟩)
    · exact Or.inr (Or.inr ⟨h.symm, hs⟩)
  · exact Or.inr (Or.inl h)

theorem entryLeB_antisymm {a b : Entry} (h1 : entryLeB a b = true)
    (h2 : entryLeB b a = true) : a = b := by
  simp only [entryLeB, Bool.or_eq_true, Bool.and_eq_true, decide_eq_true_eq, beq_iff_eq] at h1 h2
  rcases h1 with h1 | ⟨h1a, h1b⟩
  · rcases h2 with h2 | ⟨h2a, _⟩
    · omega
    · omega
  · rcases h2 with h2 | ⟨_, h2b⟩
    · omega
    · exact Prod.ext h1a (string_ext _ _ (strLeB_antisymm h1b h2b))

theorem entryLeB_trans {a b c : Entry} (h1 : entryLeB a b = true)
    (h2 : entryLeB b c = true) : entryLeB a c = true := by
  simp only [entryLeB, Bool.or_eq_true, Bool.and_eq_true, decide_eq_true_eq, beq_iff_eq] at h1 h2 ⊢
  rcases h1 with h1 | ⟨h1a, h1b⟩
  · rcases h2 with h2 | ⟨h2a, _⟩
    · exact Or.inl (by omega)
    · exact Or.inl (by omega)
  · rcases h2 with h2 | ⟨h2a, h2b⟩
    · exact Or.inl (by omega)
    · exact Or.inr ⟨by omega, strLeB_trans h1b h2b⟩

theorem minEntry_mem (e : Entry) (l : List Entry) : minEntry e l ∈ e :: l := by
  induction l generalizing e with
  | nil => simp [minEntry]
  | cons f r ih =>
    simp only [minEntry]
    by_cases h : entryLeB e f = true
    · rw [if_pos h]
      have h3 := ih e
      rw [List.mem_cons] at h3
      rcases h3 with h2 | h2
      · rw [h2]
        simp
      · simp [h2]
    · rw [if_neg h]
      have h3 := ih f
      rw [List.mem_cons] at h3
      rcases h3 with h2 | h2
      · rw [h2]
        simp
      · simp [h2]

theorem minEntry_le (e : Entry) (l : List Entry) :
    ∀ x ∈ e :: l, entryLeB (minEntry e l) x = true := by
  induction l generalizing e with
  | nil =>
    intro x hx
    rw [List.mem_cons] at hx
    rcases hx with rfl | hx
    · simp [minEntry, entryLeB_refl]
    · simp at hx
  | cons f r ih =>
    intro x hx
    rw [List.mem_cons] at hx
    simp only [minEntry]
    by_cases h : entryLeB e f = true
    · rw [if_pos h]
      rcases hx with rfl | hx
      · exact ih _ _ (List.mem_cons_self _ _)
      · rw [List.mem_cons] at hx
        rcases hx with rfl | hx
        · exact entryLeB_trans (ih e e (by simp)) h
        · exact ih e _ (by simp [hx])
    · rw [if_neg h]
      have hfe : entryLeB f e = true := by
        rcases entryLeB_total e f with h2 | h2
        · exact absurd h2 h
        · exact h2
      rcases hx with rfl | hx
      · exact entryLeB_trans (ih f f (by simp)) hfe
      · rw [List.mem_cons] at hx
        rcases hx with rfl | hx
        · exact ih _ _ (List.mem_cons_self _ _)
        · exact ih f _ (by simp [hx])

end TPCrawler

namespace TPCrawler

theorem perm_cons_pqRemove (m : Entry) (l : List Entry) (h : m ∈ l) :
    l.Perm (m :: pqRemove m l) := by
  induction l with
  | nil => cases h
  | cons e r ih =>
    by_cases he : e = m
    · subst he
      simp [pqRemove]
    · simp only [pqRemove, if_neg he]
      have hm : m ∈ r := by
        rcases List.mem_cons.1 h with h1 | h1
        · exact absurd h1.symm he
        · exact h1
      exact ((ih hm).cons e).trans (List.Perm.swap _ _ _)

theorem mem_of_mem_pqRemove {b m : Entry} {l : List Entry}
    (h : b ∈ pqRemove m l) : b ∈ l := by
  induction l with
  | nil => simp [pqRemove] at h
  | cons e r ih =>
    by_cases he : e = m
    · subst he
      simp only [pqRemove, if_pos rfl] at h
      exact List.mem_cons_of_mem _ h
    · simp only [pqRemove, if_neg he] at h
      rcases List.mem_cons.1 h with h1 | h1
      · simp [h1]
      · exact List.mem_cons_of_mem _ (ih h1)

theorem pqPop_cons (e : Entry) (r : List Entry) :
    pqPop (e :: r) = some (minEntry e r, pqRemove (minEntry e r) (e :: r)) := rfl

theorem pqDrain_spec : ∀ n (q : List Entry), q.length ≤ n →
    (pqDrain n q).Perm q ∧ (pqDrain n q).Pairwise (fun a b => entryLeB a b = true) := by
  intro n
  induction n with
  | zero =>
    intro q hq
    have hq0 : q = [] := List.length_eq_zero.1 (Nat.le_zero.1 hq)
    subst hq0
    simp [pqDrain]
  | succ n ih =>
    intro q hq
    cases q with
    | nil => simp [pqDrain, pqPop]
    | cons e r =>
      have hm := minEntry_mem e r
      have hperm := perm_cons_pqRemove _ _ hm
      have hlen : (pqRemove (minEntry e r) (e :: r)).length ≤ n := by
        have hl := hperm.length_eq
        simp only [List.length_cons] at hl hq
        omega
      obtain ⟨ihp, ihs⟩ := ih _ hlen
      have hdrain : pqDrain (n + 1) (e :: r) =
          minEntry e r :: pqDrain n (pqRemove (minEntry e r) (e :: r)) := by
        simp [pqDrain, pqPop_cons]
      rw [hdrain]
      constructor
      · exact (ihp.cons _).trans hperm.symm
      · rw [List.pairwise_cons]
        refine ⟨?_, ihs⟩
        intro b hb
        have hb2 : b ∈ pqRemove (minEntry e r) (e :: r) := ihp.mem_iff.1 hb
        have hb3 : b ∈ e :: r := mem_of_mem_pqRemove hb2
        exact minEntry_le e r b hb3

theorem pqDrain_perm_eq (q q2 : List Entry) (h : q.Perm q2) :
    pqDrain q.length q = pqDrain q2.length q2 := by
  obtain ⟨hp1, hs1⟩ := pqDrain_spec q.length q (le_refl _)
  obtain ⟨hp2, hs2⟩ := pqDrain_spec q2.length q2 (le_refl _)
  have hpp : (pqDrain q.length q).Perm (pqDrain q2.length q2) :=
    hp1.trans (h.trans hp2.symm)
  haveI : IsAntisymm Entry (fun a b => entryLeB a b = true) :=
    ⟨fun a b h1 h2 => entryLeB_antisymm h1 h2⟩
  exact List.eq_of_perm_of_sorted hpp hs1 hs2

/-- Every link produced by the extractor passed the cross-domain
filter and was fragment-stripped. -/
theorem extract_link_mem (W : World) (base : Option (List Char)) (html url : String)
    (l : Link) (hl : l ∈ (extractContent W base html url).links) :
    (netlocOf l.url = [] ∨ some (netlocOf l.url) = base) ∧ '#' ∉ l.url.data := by
  simp only [extractContent] at hl
  rw [List.mem_filterMap] at hl
  obtain ⟨a, _, hfa⟩ := hl
  by_cases hskip : skipHref a.1 = true
  · rw [if_pos hskip] at hfa
    simp at hfa
  · rw [if_neg hskip] at hfa
    by_cases hallow : linkAllowed base (W.urljoin url a.1) = true
    · rw [if_pos hallow] at hfa
      simp only [Option.some.injEq] at hfa
      have hurl : l.url = cleanLink (W.urljoin url a.1) := by
        rw [← hfa]
      constructor
      · rw [hurl, cleanLink_netloc]
        simp only [linkAllowed, Bool.not_eq_true', Bool.and_eq_false_iff] at hallow
        rcases hallow with h | h
        · left
          simpa using h
        · right
          simpa using h
      · rw [hurl]
        exact cleanLink_noHash _
    · rw [if_neg hallow] at hfa
      simp at hfa

/-! ### Crawl-state field lemmas -/

theorem addUrl_visited (st : CrawlState) (u : String) :
    (addUrlToQueue st u).visited = st.visited := by
  unfold addUrlToQueue
  split_ifs <;> rfl

theorem addUrl_results (st : CrawlState) (u : String) :
    (addUrlToQueue st u).results = st.results := by
  unfold addUrlToQueue
  split_ifs <;> rfl

theorem addUrl_pages (st : CrawlState) (u : String) :
    (addUrlToQueue st u).pagesCrawled = st.pagesCrawled := by
  unfold addUrlToQueue
  split_ifs <;> rfl

theorem addUrl_fetched (st : CrawlState) (u : String) :
    (addUrlToQueue st u).fetched = st.fetched := by
  unfold addUrlToQueue
  split_ifs <;> rfl

theorem addUrl_log (st : CrawlState) (u : String) :
    (addUrlToQueue st u).enqueuedLog = st.enqueuedLog ∨
      (addUrlToQueue st u).enqueuedLog = st.enqueuedLog ++ [u] := by
  unfold addUrlToQueue
  split_ifs
  · exact Or.inl rfl
  · exact Or.inl rfl
  · exact Or.inr rfl

theorem offerLink_visited (st : CrawlState) (l : Link) :
    (offerLink st l).visited = st.visited := by
  unfold offerLink
  split_ifs
  · rfl
  · exact addUrl_visited st l.url

theorem offerLink_results (st : CrawlState) (l : Link) :
    (offerLink st l).results = st.results := by
  unfold offerLink
  split_ifs
  · rfl
  · exact addUrl_results st l.url

theorem offerLink_pages (st : CrawlState) (l : Link) :
    (offerLink st l).pagesCrawled = st.pagesCrawled := by
  unfold offerLink
  split_ifs
  · rfl
  · exact addUrl_pages st l.url

theorem offerLink_fetched (st : CrawlState) (l : Link) :
    (offerLink st l).fetched = st.fetched := by
  unfold offerLink
  split_ifs
  · rfl
  · exact addUrl_fetched st l.url

theorem offerLink_log (st : CrawlState) (l : Link) :
    (offerLink st l).enqueuedLog = st.enqueuedLog ∨
      (offerLink st l).enqueuedLog = st.enqueuedLog ++ [l.url] := by
  unfold offerLink
  split_ifs
  · exact Or.inl rfl
  · exact addUrl_log st l.url

theorem enqueueLinks_cons (l : Link) (ls : List Link) (st : CrawlState) :
    enqueueLinks (l :: ls) st = enqueueLinks ls (offerLink st l) := rfl

theorem enqueueLinks_visited (links : List Link) (st : CrawlState) :
    (enqueueLinks links st).visited = st.visited := by
  induction links generalizing st with
  | nil => rfl
  | cons l ls ih =>
    rw [enqueueLinks_cons, ih, offerLink_visited]

theorem enqueueLinks_results (links : List Link) (st : CrawlState) :
    (enqueueLinks links st).results = st.results := by
  induction links generalizing st with
  | nil => rfl
  | cons l ls ih =>
    rw [enqueueLinks_cons, ih, offerLink_results]

theorem enqueueLinks_pages (links : List Link) (st : CrawlState) :
    (enqueueLinks links st).pagesCrawled = st.pagesCrawled := by
  induction links generalizing st with
  | nil => rfl
  | cons l ls ih =>
    rw [enqueueLinks_cons, ih, offerLink_pages]

theorem enqueueLinks_fetched (links : List Link) (st : CrawlState) :
    (enqueueLinks links st).fetched = st.fetched := by
  induction links generalizing st with
  | nil => rfl
  | cons l ls ih =>
    rw [enqueueLinks_cons, ih, offerLink_fetched]

theorem enqueueLinks_log (links : List Link) (st : CrawlState) :
    ∀ u ∈ (enqueueLinks links st).enqueuedLog,
      u ∈ st.enqueuedLog ∨ ∃ l ∈ links, u = l.url := by
  induction links generalizing st with
  | nil =>
    intro u hu
    exact Or.inl hu
  | cons l ls ih =>
    intro u hu
    rw [enqueueLinks_cons] at hu
    rcases ih _ u hu with hu2 | ⟨l2, hl2, hu2⟩
    · rcases offerLink_log st l with he | he
      · rw [he] at hu2
        exact Or.inl hu2
      · rw [he] at hu2
        rcases List.mem_append.1 hu2 with h2 | h2
        · exact Or.inl h2
        · exact Or.inr ⟨l, by simp, by simpa using h2⟩
    · exact Or.inr ⟨l2, by simp [hl2], hu2⟩

/-! ### Crawl-loop invariants -/

/-- The main safety invariant of the crawl loop. -/
def Inv (c : Crawler) (st : CrawlState) : Prop :=
  (∀ u ∈ st.fetched, u ∈ st.visited) ∧ st.fetched.Nodup ∧
    st.results.length = st.pagesCrawled ∧ st.pagesCrawled ≤ c.maxPages ∧
    (∀ p ∈ st.results, p.url ∈ st.visited) ∧ (st.results.map Page.url).Nodup

theorem crawlStep_inv (W : World) (c : Crawler) (st : CrawlState) (h : Inv c st) :
    Inv c (crawlStep W c st) := by
  obtain ⟨h1, h2, h3, h4, h5, h6⟩ := h
  unfold crawlStep
  by_cases hb : st.pagesCrawled < c.maxPages
  case neg =>
    rw [if_neg hb]
    exact ⟨h1, h2, h3, h4, h5, h6⟩
  rw [if_pos hb]
  rcases hpop : pqPop st.queue with _ | ⟨e, rest⟩
  · exact ⟨h1, h2, h3, h4, h5, h6⟩
  simp only
  by_cases hv : e.2 ∈ st.visited
  · rw [if_pos hv]
    exact ⟨h1, h2, h3, h4, h5, h6⟩
  rw [if_neg hv]
  by_cases hcf : canFetchRun W e.2 = true
  case neg =>
    rw [if_neg hcf]
    exact ⟨fun u hu => List.mem_cons_of_mem _ (h1 u hu), h2, h3, h4,
      fun p hp => List.mem_cons_of_mem _ (h5 p hp), h6⟩
  rw [if_pos hcf]
  have hf1 : ∀ u ∈ st.fetched ++ [e.2], u ∈ e.2 :: st.visited := by
    intro u hu
    rcases List.mem_append.1 hu with hu | hu
    · exact List.mem_cons_of_mem _ (h1 u hu)
    · simp at hu
      simp [hu]
  have hf2 : (st.fetched ++ [e.2]).Nodup := by
    rw [List.nodup_append]
    refine ⟨h2, by simp, ?_⟩
    intro u hu
    simp only [List.mem_singleton]
    intro he
    exact hv (he ▸ h1 u hu)
  rcases hmr : makeRequest W e.2 with _ | html
  · simp only
    exact ⟨hf1, hf2, h3, h4,
      fun p hp => List.mem_cons_of_mem _ (h5 p hp), h6⟩
  simp only
  by_cases hemp : (html == "") = true
  · rw [if_pos hemp]
    exact ⟨hf1, hf2, h3, h4,
      fun p hp => List.mem_cons_of_mem _ (h5 p hp), h6⟩
  rw [if_neg hemp]
  simp only [enqueueLinks_visited, enqueueLinks_results, enqueueLinks_pages,
    enqueueLinks_fetched]
  refine ⟨hf1, hf2, ?_, ?_, ?_, ?_⟩
  · simp [h3]
  · show st.pagesCrawled + 1 ≤ c.maxPages
    omega
  · intro p hp
    rcases List.mem_append.1 hp with hp | hp
    · exact List.mem_cons_of_mem _ (h5 p hp)
    · simp at hp
      subst hp
      show e.2 ∈ e.2 :: st.visited
      simp
  · rw [List.map_append, List.nodup_append]
    refine ⟨h6, by simp, ?_⟩
    intro u hu
    simp only [List.map_cons, List.map_nil, List.mem_singleton]
    intro he
    rw [List.mem_map] at hu
    obtain ⟨p, hp, rfl⟩ := hu
    have : p.url ∈ st.visited := h5 p hp
    rw [he] at this
    exact hv this



/-- The domain / fragment invariant of the ghost enqueue log. -/
def InvLog (c : Crawler) (st : CrawlState) : Prop :=
  ∀ u ∈ st.enqueuedLog,
    (netlocOf u = [] ∨ some (netlocOf u) = baseDomainOf c.startUrl) ∧
      (u = c.startUrl ∨ '#' ∉ u.data)

theorem crawlStep_invLog (W : World) (c : Crawler) (st : CrawlState)
    (h : InvLog c st) : InvLog c (crawlStep W c st) := by
  unfold crawlStep
  by_cases hb : st.pagesCrawled < c.maxPages
  case neg =>
    rw [if_neg hb]
    exact h
  rw [if_pos hb]
  rcases hpop : pqPop st.queue with _ | ⟨e, rest⟩
  · exact h
  simp only
  by_cases hv : e.2 ∈ st.visited
  · rw [if_pos hv]
    exact h
  rw [if_neg hv]
  by_cases hcf : canFetchRun W e.2 = true
  case neg =>
    rw [if_neg hcf]
    exact h
  rw [if_pos hcf]
  rcases hmr : makeRequest W e.2 with _ | html
  · simp only
    exact h
  simp only
  by_cases hemp : (html == "") = true
  · rw [if_pos hemp]
    exact h
  rw [if_neg hemp]
  intro u hu
  have hu2 := enqueueLinks_log _ _ u hu
  rcases hu2 with hu2 | ⟨l, hl, rfl⟩
  · exact h u hu2
  · have hm := extract_link_mem W (baseDomainOf c.startUrl) html e.2 l hl
    exact ⟨hm.1, Or.inr hm.2⟩



theorem init_eq (c : Crawler) (st0 : CrawlState) (h : initCrawl c = some st0) :
    st0 = ⟨[(getPriority c.startUrl, c.startUrl)], [], [], 0, [], [c.startUrl]⟩ := by
  unfold initCrawl at h
  rcases hb : baseDomainOf c.startUrl with _ | nl
  · rw [hb] at h
    simp at h
  · rw [hb] at h
    simp only [Option.some.injEq] at h
    rw [← h]
    simp [addUrlToQueue, emptyState, pqPush]

theorem inv_init (c : Crawler) (st0 : CrawlState) (h : initCrawl c = some st0) :
    Inv c st0 := by
  rw [init_eq c st0 h]
  exact ⟨by simp, by simp, rfl, Nat.zero_le _, by simp, by simp⟩

theorem invLog_init (c : Crawler) (st0 : CrawlState) (h : initCrawl c = some st0) :
    InvLog c st0 := by
  rw [init_eq c st0 h]
  intro u hu
  simp only [List.mem_singleton] at hu
  subst hu
  refine ⟨?_, Or.inl rfl⟩
  by_cases hnl : netlocOf c.startUrl = []
  · exact Or.inl hnl
  · right
    simp only [baseDomainOf, netlocOf] at hnl ⊢
    rw [if_neg hnl]

theorem iterate_inv (W : World) (c : Crawler) (n : Nat) (st : CrawlState)
    (h : Inv c st) : Inv c ((crawlStep W c)^[n] st) := by
  induction n generalizing st with
  | zero => exact h
  | succ n ih =>
    rw [Function.iterate_succ_apply]
    exact ih _ (crawlStep_inv W c st h)

theorem iterate_invLog (W : World) (c : Crawler) (n : Nat) (st : CrawlState)
    (h : InvLog c st) : InvLog c ((crawlStep W c)^[n] st) := by
  induction n generalizing st with
  | zero => exact h
  | succ n ih =>
    rw [Function.iterate_succ_apply]
    exact ih _ (crawlStep_invLog W c st h)

theorem crawlStep_discard (W : World) (c : Crawler) (st : CrawlState)
    (e : Entry) (rest : List Entry)
    (hpop : pqPop st.queue = some (e, rest)) (hb : st.pagesCrawled < c.maxPages)
    (hv : e.2 ∈ st.visited) :
    crawlStep W c st = { st with queue := rest } := by
  unfold crawlStep
  rw [if_pos hb]
  simp only [hpop]
  rw [if_pos hv]

theorem crawlStep_skip (W : World) (c : Crawler) (st : CrawlState)
    (e : Entry) (rest : List Entry)
    (hpop : pqPop st.queue = some (e, rest)) (hb : st.pagesCrawled < c.maxPages)
    (hv : e.2 ∉ st.visited)
    (hskip : canFetchRun W e.2 = false ∨ makeRequest W e.2 = none) :
    (crawlStep W c st).results = st.results ∧
      (crawlStep W c st).pagesCrawled = st.pagesCrawled ∧
      e.2 ∈ (crawlStep W c st).visited ∧
      (crawlStep W c st).queue = rest := by
  unfold crawlStep
  rw [if_pos hb]
  simp only [hpop]
  rw [if_neg hv]
  rcases hskip with hs | hs
  · rw [if_neg (by simp [hs])]
    exact ⟨by simp, by simp, by simp, by simp⟩
  · by_cases hcf : canFetchRun W e.2 = true
    · rw [if_pos hcf]
      simp only [hs]
      exact ⟨by simp, by simp, by simp, by simp⟩
    · rw [if_neg hcf]
      exact ⟨by simp, by simp, by simp, by simp⟩

/-! ### Witness fixtures: a small concrete world and crawler -/

/-- A concrete world: one HTML page "H" at the seed linking to /a#f and
to an external host, a PDF at /pdf, robots loaded and denying /x. -/
def exWorld : World :=
  { robotsAvailable := true
    robotsMatch := fun u => if u = "http://h/x" then some false else some true
    response := fun u =>
      if u = "http://h/" then some ("text/html", [(72 : Fin 256)])
      else if u = "http://h/pdf" then some ("application/pdf", [(65 : Fin 256)])
      else none
    titleText := fun _ => some "T"
    paragraphs := fun _ => []
    anchors := fun h => if h = "H" then [("/a#f", "A"), ("http://other/z", "B")] else []
    urljoin := fun _ href => if isPrefixB ['/'] href.data then "http://h" ++ href else href }

/-- A concrete crawler on exWorld. -/
def exCrawler : Crawler := ⟨"http://h/", 2⟩

/-- State after three loop iterations of the exWorld run (already its
fixed point). -/
def exFinal : CrawlState :=
  ⟨[], ["http://h/a", "http://h/"],
    [⟨"T", "http://h/", "", [⟨"http://h/a", "A"⟩]⟩], 1,
    ["http://h/", "http://h/a"], ["http://h/", "http://h/a"]⟩

/-- A state whose head entry is already visited. -/
def exVisState : CrawlState := ⟨[(1, "u")], ["u"], [], 0, [], ["u"]⟩

/-- A state whose head entry resolves to a PDF. -/
def exSkipState : CrawlState := ⟨[(1, "http://h/pdf")], [], [], 0, [], []⟩

/-- A crawler whose seed URL carries a fragment. -/
def exFragCrawler : Crawler := ⟨"http://h/p#f1", 2⟩

/-- Seeded state of exFragCrawler: the seed is enqueued verbatim. -/
def exFragInit : CrawlState :=
  ⟨[(1, "http://h/p#f1")], [], [], 0, [], ["http://h/p#f1"]⟩

/-- A world whose page "H" links to the base host with an explicit
port, to the base host in upper case, and to the base host exactly. -/
def exWorld10 : World :=
  { exWorld with
    anchors := fun h =>
      if h = "H" then
        [("http://example.com:8080/a", "p"), ("http://EXAMPLE.com/b", "c"),
          ("http://example.com/c", "ok")]
      else []
    urljoin := fun _ href => href }

/-- A world with robots.txt unavailable. -/
def exWorldNoRobots : World :=
  { exWorld with robotsAvailable := false, robotsMatch := fun _ => none }

/-- A single byte that is not valid UTF-8. -/
def exBytes : List (Fin 256) := [(255 : Fin 256)]

/-- A state with one visited URL and one pending entry. -/
def exSt9 : CrawlState := ⟨[(0, "v")], ["w"], [], 0, [], []⟩

/-! ### The claims -/

/-- C1: every URL is fetched at most once per run: the fetch trace of
every reachable state is duplicate-free, every fetched URL was marked
visited no later than its fetch attempt (so a URL whose fetch fails is
never retried), and a dequeued URL that is already visited is discarded
without fetching (the step only pops the queue). -/
theorem claim_C1 (W : World) (c : Crawler) (n : Nat) (st : CrawlState)
    (h : crawlRun W c n = some st) :
    st.fetched.Nodup ∧ (∀ u ∈ st.fetched, u ∈ st.visited) ∧
      (∀ st2 e rest, st2.pagesCrawled < c.maxPages →
        pqPop st2.queue = some (e, rest) → e.2 ∈ st2.visited →
        crawlStep W c st2 = { st2 with queue := rest }) := by
  unfold crawlRun at h
  rcases hi : initCrawl c with _ | st0
  · rw [hi] at h
    simp at h
  · rw [hi] at h
    simp only [Option.map_some', Option.some.injEq] at h
    subst h
    have hinv := iterate_inv W c n st0 (inv_init c st0 hi)
    exact ⟨hinv.2.1, hinv.1, fun st2 e rest hb hpop hv =>
      crawlStep_discard W c st2 e rest hpop hb hv⟩

theorem claim_C1_witness :
    exFinal.fetched.Nodup ∧
      crawlStep exWorld exCrawler exVisState = { exVisState with queue := [] } :=
  ⟨(claim_C1 exWorld exCrawler 3 exFinal rfl).1,
    (claim_C1 exWorld exCrawler 3 exFinal rfl).2.2 exVisState (1, "u") []
      (by decide) rfl (by decide)⟩

/-- C2: at every point of every run the results sequence has at most
max_pages records and no two records share a url. -/
theorem claim_C2 (W : World) (c : Crawler) (n : Nat) (st : CrawlState)
    (h : crawlRun W c n = some st) :
    st.results.length ≤ c.maxPages ∧ (st.results.map Page.url).Nodup := by
  unfold crawlRun at h
  rcases hi : initCrawl c with _ | st0
  · rw [hi] at h
    simp at h
  · rw [hi] at h
    simp only [Option.map_some', Option.some.injEq] at h
    subst h
    have hinv := iterate_inv W c n st0 (inv_init c st0 hi)
    exact ⟨hinv.2.2.1 ▸ hinv.2.2.2.1, hinv.2.2.2.2.2⟩

theorem claim_C2_witness :
    exFinal.results.length ≤ exCrawler.maxPages ∧
      (exFinal.results.map Page.url).Nodup :=
  claim_C2 exWorld exCrawler 3 exFinal rfl

/-- C3: the frontier serves entries in ascending (priority, url) order
with the lexicographic url tie-break: draining sorts the queue, the
result does not depend on insertion order, and the concrete scenario
(0,"b"), (0,"a"), (1,"c") dequeues as "a", "b", "c". -/
theorem claim_C3 (q q2 : List Entry) (hperm : q.Perm q2) :
    (pqDrain q.length q).Perm q ∧
      (pqDrain q.length q).Pairwise (fun a b => entryLeB a b = true) ∧
      pqDrain q.length q = pqDrain q2.length q2 ∧
      (pqDrain 3 (pqPush (pqPush (pqPush [] (0, "b")) (0, "a")) (1, "c"))).map
          (fun e => e.2) = ["a", "b", "c"] := by
  obtain ⟨hp, hs⟩ := pqDrain_spec q.length q (le_refl _)
  exact ⟨hp, hs, pqDrain_perm_eq q q2 hperm, by decide⟩

theorem claim_C3_witness :
    pqDrain 2 [(0, "b"), (0, "a")] = pqDrain 2 [(0, "a"), (0, "b")] ∧
      (pqDrain 3 (pqPush (pqPush (pqPush [] (0, "b")) (0, "a")) (1, "c"))).map
        (fun e => e.2) = ["a", "b", "c"] :=
  ⟨(claim_C3 [(0, "b"), (0, "a")] [(0, "a"), (0, "b")] (by decide)).2.2.1,
    (claim_C3 [] [] (List.Perm.refl _)).2.2.2⟩

/-- C4: every URL ever enqueued in a run has an empty parsed netloc
(the link carried no explicit host) or a parsed netloc equal to
base_domain. -/
theorem claim_C4 (W : World) (c : Crawler) (n : Nat) (st : CrawlState)
    (h : crawlRun W c n = some st) :
    ∀ u ∈ st.enqueuedLog,
      netlocOf u = [] ∨ some (netlocOf u) = baseDomainOf c.startUrl := by
  unfold crawlRun at h
  rcases hi : initCrawl c with _ | st0
  · rw [hi] at h
    simp at h
  · rw [hi] at h
    simp only [Option.map_some', Option.some.injEq] at h
    subst h
    have hinv := iterate_invLog W c n st0 (invLog_init c st0 hi)
    exact fun u hu => (hinv u hu).1

theorem claim_C4_witness :
    netlocOf "http://h/a" = [] ∨
      some (netlocOf "http://h/a") = baseDomainOf exCrawler.startUrl :=
  claim_C4 exWorld exCrawler 3 exFinal rfl "http://h/a" (by decide)

/-- C5 as stated is false: crawl() enqueues the seed URL verbatim, so a
seed with a fragment is stored with its fragment intact.  Concretely,
seeding with "http://h/p#f1" enqueues a URL whose parsed fragment is
"f1". -/
theorem claim_C5_counterexample :
    crawlRun exWorld exFragCrawler 0 = some exFragInit ∧
      "http://h/p#f1" ∈ exFragInit.enqueuedLog ∧
      (urlparse "http://h/p#f1").fragment = ['f', '1'] :=
  ⟨rfl, by decide, by decide⟩

/-- C5 (amended): every URL enqueued in a run other than the seed has
its fragment removed before storage, every link the extractor emits is
fragment-free, and two URLs differing only in the fragment produce the
same cleaned entry; the seed URL itself is enqueued verbatim and may
keep a fragment. -/
theorem claim_C5 (W : World) (c : Crawler) (n : Nat) (st : CrawlState)
    (h : crawlRun W c n = some st) :
    (∀ u ∈ st.enqueuedLog, u = c.startUrl ∨ '#' ∉ u.data) ∧
      (∀ W2 base html url, ∀ l ∈ (extractContent W2 base html url).links,
        '#' ∉ l.url.data) ∧
      cleanLink "http://x/p#frag1" = cleanLink "http://x/p#frag2" := by
  refine ⟨?_, ?_, by decide⟩
  · unfold crawlRun at h
    rcases hi : initCrawl c with _ | st0
    · rw [hi] at h
      simp at h
    · rw [hi] at h
      simp only [Option.map_some', Option.some.injEq] at h
      subst h
      have hinv := iterate_invLog W c n st0 (invLog_init c st0 hi)
      exact fun u hu => (hinv u hu).2
  · intro W2 base html url l hl
    exact (extract_link_mem W2 base html url l hl).2

theorem claim_C5_witness :
    ("http://h/a" = exCrawler.startUrl ∨ '#' ∉ "http://h/a".data) ∧
      cleanLink "http://x/p#frag1" = cleanLink "http://x/p#frag2" :=
  ⟨(claim_C5 exWorld exCrawler 3 exFinal rfl).1 "http://h/a" (by decide),
    (claim_C5 exWorld exCrawler 3 exFinal rfl).2.2⟩

/-- C6: body decoding tries utf-8, iso-8859-1, windows-1252 in that
order and returns the first success; if all fail it falls back to a
lossy utf-8 decode instead of failing; decoding itself never makes
make_request return none (only exceptions and non-HTML content types
do). -/
theorem claim_C6 (bs : List (Fin 256)) :
    (∀ cs, utf8Decode bs = some cs → decodeHtml bs = ⟨cs⟩) ∧
      (utf8Decode bs = none → ∀ cs, latin1Decode bs = some cs → decodeHtml bs = ⟨cs⟩) ∧
      (utf8Decode bs = none → latin1Decode bs = none →
        ∀ cs, w1252Decode bs = some cs → decodeHtml bs = ⟨cs⟩) ∧
      (utf8Decode bs = none → latin1Decode bs = none → w1252Decode bs = none →
        decodeHtml bs = ⟨utf8DecodeIgnore bs⟩) ∧
      (∀ W url ct body, W.response url = some (ct, body) →
        isInfixB "text/html".data ct.data = true →
        makeRequest W url = some (decodeHtml body)) := by
  refine ⟨?_, ?_, ?_, ?_, ?_⟩
  · intro cs h
    unfold decodeHtml firstSuccess decodeAttempts
    simp [h]
  · intro h1 cs h
    simp [decodeHtml, decodeAttempts, firstSuccess, h1, h]
  · intro h1 h2 cs h
    simp [decodeHtml, decodeAttempts, firstSuccess, h1, h2, h]
  · intro h1 h2 h3
    simp [decodeHtml, decodeAttempts, firstSuccess, h1, h2, h3]
  · intro W url ct body hresp hct
    unfold makeRequest
    rw [hresp]
    simp [hct]

theorem claim_C6_witness : decodeHtml exBytes = ⟨[Char.ofNat 255]⟩ :=
  (claim_C6 exBytes).2.1 (by decide) [Char.ofNat 255] rfl

/-- C7: the robots gate fails open: when robots.txt is not loaded every
query allows; when loaded, a matcher exception still allows; otherwise
the matcher's verdict is returned; the check is a total function and
never aborts the crawl. -/
theorem claim_C7 (W : World) (u : String) :
    (W.robotsAvailable = false → canFetchRun W u = true) ∧
      (W.robotsMatch u = none → canFetchRun W u = true) ∧
      (∀ b, W.robotsAvailable = true → W.robotsMatch u = some b →
        canFetchRun W u = b) := by
  refine ⟨?_, ?_, ?_⟩
  · intro h
    unfold canFetchRun
    rw [h]
    simp
  · intro h
    unfold canFetchRun
    rcases ha : W.robotsAvailable
    · simp
    · simp [h]
  · intro b ha hm
    unfold canFetchRun
    rw [ha, hm]
    simp

theorem claim_C7_witness : canFetchRun exWorldNoRobots "http://h/" = true :=
  (claim_C7 exWorldNoRobots "http://h/").1 rfl

/-- C8: a dequeued, unvisited URL that the robots gate denies or whose
fetch returns none (a non-HTML content type included) is skipped
without consuming budget or producing a result, stays visited, and the
loop moves on to the remaining frontier. -/
theorem claim_C8 (W : World) (c : Crawler) (st : CrawlState) (e : Entry)
    (rest : List Entry) (hpop : pqPop st.queue = some (e, rest))
    (hb : st.pagesCrawled < c.maxPages) (hv : e.2 ∉ st.visited)
    (hskip : canFetchRun W e.2 = false ∨ makeRequest W e.2 = none) :
    (crawlStep W c st).results = st.results ∧
      (crawlStep W c st).pagesCrawled = st.pagesCrawled ∧
      e.2 ∈ (crawlStep W c st).visited ∧
      (crawlStep W c st).queue = rest ∧
      (∀ ct body, W.response e.2 = some (ct, body) →
        isInfixB "text/html".data ct.data = false → makeRequest W e.2 = none) := by
  refine ⟨(crawlStep_skip W c st e rest hpop hb hv hskip).1,
    (crawlStep_skip W c st e rest hpop hb hv hskip).2.1,
    (crawlStep_skip W c st e rest hpop hb hv hskip).2.2.1,
    (crawlStep_skip W c st e rest hpop hb hv hskip).2.2.2, ?_⟩
  intro ct body hresp hct
  unfold makeRequest
  rw [hresp]
  simp [hct]

theorem claim_C8_witness :
    (crawlStep exWorld exCrawler exSkipState).results = exSkipState.results ∧
      (crawlStep exWorld exCrawler exSkipState).pagesCrawled =
        exSkipState.pagesCrawled ∧
      "http://h/pdf" ∈ (crawlStep exWorld exCrawler exSkipState).visited := by
  have h := claim_C8 exWorld exCrawler exSkipState (1, "http://h/pdf") []
    rfl (by decide) (by decide) (Or.inr rfl)
  exact ⟨h.1, h.2.1, h.2.2.1⟩

/-- C9: enqueue is a no-op for a URL already visited or already pending
anywhere in the queue: the whole state, frontier included, is
unchanged. -/
theorem claim_C9 (st : CrawlState) (u : String)
    (h : u ∈ st.visited ∨ ∃ p, (p, u) ∈ st.queue) :
    addUrlToQueue st u = st := by
  unfold addUrlToQueue
  by_cases hv : u ∈ st.visited
  · rw [if_pos hv]
  · rw [if_neg hv]
    rcases h with h | ⟨p, hp⟩
    · exact absurd h hv
    · rw [if_pos]
      rw [List.any_eq_true]
      exact ⟨(p, u), hp, by simp⟩

theorem claim_C9_witness :
    addUrlToQueue exSt9 "w" = exSt9 ∧ addUrlToQueue exSt9 "v" = exSt9 :=
  ⟨claim_C9 exSt9 "w" (Or.inl (by decide)),
    claim_C9 exSt9 "v" (Or.inr ⟨0, by decide⟩)⟩

/-- C10: the cross-domain filter compares the resolved netloc to
base_domain by exact string equality: every kept link has an empty
netloc or one equal to base_domain, and concretely a link with an
explicit port and a link differing only in letter case are excluded
while the exact match is kept. -/
theorem claim_C10 (W : World) (base : Option (List Char)) (html url : String) :
    (∀ l ∈ (extractContent W base html url).links,
      netlocOf l.url = [] ∨ some (netlocOf l.url) = base) ∧
      (extractContent exWorld10 (some "example.com".data) "H"
          "http://example.com/").links.map Link.url = ["http://example.com/c"] := by
  refine ⟨?_, by decide⟩
  intro l hl
  exact (extract_link_mem W base html url l hl).1

theorem claim_C10_witness :
    netlocOf "http://example.com/c" = [] ∨
      some (netlocOf "http://example.com/c") = some "example.com".data :=
  (claim_C10 exWorld10 (some "example.com".data) "H" "http://example.com/").1
    ⟨"http://example.com/c", "ok"⟩ (by decide)

end TPCrawler
